import Mathlib

/-!
# go-vtag: version tags, their ordering and the increment workflow

A shallow embedding of `main.go` (and of the in-memory tagger of `main_test.go`).

Conventions of the embedding.

* Go's `int` is the 64-bit two's-complement integer of the targets the program is built
  for.  A field is an `Int`; arithmetic that can leave the range goes through `wrapInt`.
* A Go string is the list of its runes.  All strings the program compares are ASCII, where
  Go's bytewise `<` and the lexicographic order on `List Char` agree.
* A Go call either returns normally, returns a non-nil `error`, or panics.  The last two
  are the values of `failure`; `failure.isPanic` tells a panic from a returned error.
* A slice argument that the callee reorders in place is returned next to the result, and a
  method of a tagger returns the store as the call leaves it.
* The routines of the standard library the program calls (`fmt.Sprintf`, `fmt.Fscan`,
  `fmt.Fscanf`, `strconv.ParseInt`, `sort.Slice`) and the iteration of go-git (`Tags`,
  `ForEach`) are embedded by what they do on the arguments the program passes, routine by
  routine.
* The calls `Head` and `CreateTag` of go-git, on which `gitTagger.create` relies and whose
  code is not among the sources, are modelled from the spec, in `repository.Head` and
  `repository.CreateTag`.
-/

namespace GoVtag

/-! ## Machine integers -/

/-- Width of `int`. -/
def intBits : Nat := 64

/-- Smallest `int`. -/
def minInt : Int := -(2 ^ 63)

/-- Largest `int`. -/
def maxInt : Int := 2 ^ 63 - 1

/-- Two's-complement reduction of a mathematical integer to an `int`. -/
def wrapInt (x : Int) : Int := (x + 2 ^ 63) % 2 ^ 64 - 2 ^ 63

/-- The values an `int` can hold. -/
def isInt (x : Int) : Prop := minInt ≤ x ∧ x ≤ maxInt

instance (x : Int) : Decidable (isInt x) := by
  unfold isInt
  infer_instance

/-! ## The tag (`type vtag struct`) -/

/-- The struct `vtag` of main.go: `major, minor, patch int`. -/
structure vtag where
  major : Int
  minor : Int
  patch : Int
deriving DecidableEq, Repr

/-- A tag all of whose fields are values of `int`. -/
def vtag.wellTyped (t : vtag) : Prop := isInt t.major ∧ isInt t.minor ∧ isInt t.patch

instance (t : vtag) : Decidable t.wellTyped := by
  unfold vtag.wellTyped
  infer_instance

/-! ## Formatting (`fmt.Sprintf` with `%d`) -/

/-- The base-10 loop of fmt's `fmtInteger`: while `u >= 10` the digit `u - (u/10)*10` is
written in front of the buffer and `u` becomes `u/10`; the last digit is written after the
loop.  The first argument bounds the number of iterations. -/
def fmtDigits : Nat → Nat → List Char → List Char
  | 0, _, buf => buf
  | fuel + 1, u, buf =>
    if 10 ≤ u then
      fmtDigits fuel (u / 10) (Char.ofNat (48 + u - u / 10 * 10) :: buf)
    else
      Char.ofNat (48 + u) :: buf

/-- The verb `%d` applied to an `int`: the magnitude in decimal, after a minus sign when the
value is negative. -/
def fmtInteger (x : Int) : List Char :=
  if x < 0 then '-' :: fmtDigits (x.natAbs + 1) x.natAbs []
  else fmtDigits (x.natAbs + 1) x.natAbs []

/-- The method `String` of main.go: `fmt.Sprintf("v%d.%d.%d", t.major, t.minor, t.patch)`. -/
def vtag.String (t : vtag) : List Char :=
  'v' :: (fmtInteger t.major ++ '.' :: (fmtInteger t.minor ++ '.' :: fmtInteger t.patch))

/-! ## Increment transitions -/

/-- The method `incrementMajor` of main.go: `vtag{major: t.major + 1}`. -/
def vtag.incrementMajor (t : vtag) : vtag :=
  { major := wrapInt (t.major + 1), minor := 0, patch := 0 }

/-- The method `incrementMinor` of main.go: `vtag{major: t.major, minor: t.minor + 1}`. -/
def vtag.incrementMinor (t : vtag) : vtag :=
  { major := t.major, minor := wrapInt (t.minor + 1), patch := 0 }

/-- The method `incrementPatch` of main.go:
`vtag{major: t.major, minor: t.minor, patch: t.patch + 1}`. -/
def vtag.incrementPatch (t : vtag) : vtag :=
  { major := t.major, minor := t.minor, patch := wrapInt (t.patch + 1) }

/-! ## Sorting and the latest tag -/

/-- The closure handed to `sort.Slice` by `sortVtags`:
`tags[i].String() < tags[j].String()`. -/
def vtagLess (a b : vtag) : Bool := decide (a.String < b.String)

/-- Model of `sort.Slice(x, less)`: the slice is reordered so that no element is `less` than
one before it.  The order among elements neither of which is `less` than the other is left
open by the library; `sortSlice_unique` shows that no such pair of distinct tags exists. -/
def sortSlice {α : Type} (less : α → α → Bool) (x : List α) : List α :=
  List.insertionSort (fun a b => less b a = false) x

/-- The function `sortVtags` of main.go; the reordered slice is the result. -/
def sortVtags (tags : List vtag) : List vtag := sortSlice vtagLess tags

deriving instance DecidableEq for Except

/-- What makes a Go call fail: a returned `error`, or a run-time panic. -/
inductive failure where
  /-- The error `io.EOF`. -/
  | EOF
  /-- The error `io.ErrUnexpectedEOF`. -/
  | ErrUnexpectedEOF
  /-- The fmt error "input does not match format". -/
  | noMatch
  /-- The fmt error "expected integer". -/
  | expectedInteger
  /-- The fmt error "unexpected newline". -/
  | unexpectedNewline
  /-- The strconv error `ErrSyntax`. -/
  | badNumber
  /-- The strconv error `ErrRange`. -/
  | ErrRange
  /-- The go-git error `ErrTagExists`. -/
  | ErrTagExists
  /-- The go-git error `plumbing.ErrReferenceNotFound`. -/
  | ErrReferenceNotFound
  /-- An error wrapped by `fmt.Errorf(context + ": %w", err)`. -/
  | wrapped (context : List Char) (err : failure)
  /-- The run-time panic "index out of range [index] with length len". -/
  | indexOutOfRange (index : Int) (len : Nat)
deriving DecidableEq, Repr

/-- Whether the failure is a panic rather than a returned error. -/
def failure.isPanic : failure → Bool
  | .indexOutOfRange _ _ => true
  | _ => false

/-- The index expression `tags[i]` of Go for an `int` index: a panic outside `0 ≤ i < len`. -/
def index (tags : List vtag) (i : Int) : Except failure vtag :=
  if 0 ≤ i ∧ i < tags.length then
    match tags.get? i.toNat with
    | some t => .ok t
    | none => .error (.indexOutOfRange i tags.length)
  else .error (.indexOutOfRange i tags.length)

/-- The function `latestVtag` of main.go: `sortVtags(tags); return tags[len(tags)-1]`.
The second component is the slice as the call leaves it. -/
def latestVtag (tags : List vtag) : Except failure vtag × List vtag :=
  let sorted := sortVtags tags
  (index sorted ((sorted.length : Int) - 1), sorted)

/-! ## Parsing (`fmt.Fscan` into a `*vtag`, `vtag.Scan`, `fmt.Fscanf`, `strconv.ParseInt`) -/

/-- The table `space` of fmt/scan.go: the ranges of the runes that count as space. -/
def space : List (Nat × Nat) :=
  [(0x0009, 0x000d), (0x0020, 0x0020), (0x0085, 0x0085), (0x00a0, 0x00a0), (0x1680, 0x1680),
   (0x2000, 0x200a), (0x2028, 0x2029), (0x202f, 0x202f), (0x205f, 0x205f), (0x3000, 0x3000)]

/-- The loop of fmt's `isSpace` over the table. -/
def isSpaceIn : List (Nat × Nat) → Nat → Bool
  | [], _ => false
  | rng :: rest, rx =>
    if rx < rng.1 then false
    else if rx ≤ rng.2 then true
    else isSpaceIn rest rx

/-- The function `isSpace` of fmt/scan.go. -/
def isSpace (r : Char) : Bool :=
  if 2 ^ 16 ≤ r.toNat then false else isSpaceIn space r.toNat

/-- The method `SkipSpace` of fmt's scan state, on the runes still to be read: a carriage
return before a newline is dropped, a newline is skipped when `nlIsSpace` and an error
otherwise, other spaces are skipped, and the first rune that is no space is left unread. -/
def SkipSpace (nlIsSpace : Bool) : List Char → Except failure (List Char)
  | [] => .ok []
  | r :: rest =>
    if r = '\r' ∧ rest.head? = some '\n' then SkipSpace nlIsSpace rest
    else if r = '\n' then
      if nlIsSpace then SkipSpace nlIsSpace rest else .error .unexpectedNewline
    else if !isSpace r then .ok (r :: rest)
    else SkipSpace nlIsSpace rest

/-- The string `sign` of fmt/scan.go. -/
def sign : List Char := ['+', '-']

/-- The string `decimalDigits` of fmt/scan.go. -/
def decimalDigits : List Char := ['0', '1', '2', '3', '4', '5', '6', '7', '8', '9']

/-- The method `accept` of fmt's scan state: the next rune is consumed (and appended to the
token buffer) when it occurs in `ok`, and is left unread otherwise. -/
def accept (ok : List Char) : List Char → Option Char × List Char
  | [] => (none, [])
  | r :: rest => if r ∈ ok then (some r, rest) else (none, r :: rest)

/-- The loop `for s.accept(digits) {}` of `scanNumber`: the accepted runes and the rest. -/
def acceptAll (ok : List Char) : List Char → List Char × List Char
  | [] => ([], [])
  | r :: rest =>
    if r ∈ ok then ((r :: (acceptAll ok rest).1), (acceptAll ok rest).2)
    else ([], r :: rest)

/-- The method `scanNumber(digits, false)` of fmt's scan state: at least one digit is
required; the token and the runes left unread are returned. -/
def scanNumber (digits : List Char) : List Char → Except failure (List Char × List Char)
  | [] => .error .EOF
  | r :: rest =>
    if r ∈ digits then .ok (r :: (acceptAll digits rest).1, (acceptAll digits rest).2)
    else .error .expectedInteger

/-- The loop of `strconv.ParseUint(s, 10, 64)` from the accumulator `n`: the value and the
error, with the value `1<<64 - 1` next to a range error as in the library. -/
def parseUintLoop : List Char → Nat → Nat × Option failure
  | [], n => (n, none)
  | c :: cs, n =>
    if '0' ≤ c ∧ c ≤ '9' then
      if (2 ^ 64 - 1) / 10 + 1 ≤ n then (2 ^ 64 - 1, some .ErrRange)
      else if 2 ^ 64 - 1 < n * 10 + (c.toNat - 48) then (2 ^ 64 - 1, some .ErrRange)
      else parseUintLoop cs (n * 10 + (c.toNat - 48))
    else (0, some .badNumber)

/-- The function `strconv.ParseUint(s, 10, 64)`. -/
def ParseUint (s : List Char) : Nat × Option failure :=
  if s = [] then (0, some .badNumber) else parseUintLoop s 0

/-- The function `strconv.ParseInt(s, 10, 64)`: an optional sign, then `ParseUint`; a
magnitude of `1<<63` or more (more than `1<<63` after a minus sign) is a range error. -/
def ParseInt (s : List Char) : Except failure Int :=
  match s with
  | [] => .error .badNumber
  | c :: cs =>
    let neg := decide (c = '-')
    let body := if c = '+' ∨ c = '-' then cs else c :: cs
    match ParseUint body with
    | (_, some .badNumber) => .error .badNumber
    | (un, _) =>
      if !neg ∧ 2 ^ 63 ≤ un then .error .ErrRange
      else if neg ∧ 2 ^ 63 < un then .error .ErrRange
      else .ok (if neg then -(un : Int) else (un : Int))

/-- The method `scanInt('d', intBits)` of fmt's scan state: spaces are skipped, the input
must not be at its end, an optional sign and a run of decimal digits form the token, and
`strconv.ParseInt` converts it.  With `intBits = 64` the overflow test that follows the
conversion never fires. -/
def scanInt (input : List Char) : Except failure (Int × List Char) :=
  match SkipSpace false input with
  | .error e => .error e
  | .ok [] => .error .EOF
  | .ok (r :: rest) =>
    match scanNumber decimalDigits (accept sign (r :: rest)).2 with
    | .error e => .error e
    | .ok (tok, unread) =>
      match ParseInt ((accept sign (r :: rest)).1.toList ++ tok) with
      | .error e => .error e
      | .ok i => .ok (i, unread)

/-- The method `advance` of fmt's scan state on a format that starts with the literal `c`
and goes on with a verb: the next rune has to be `c`. -/
def advance (c : Char) : List Char → Except failure (List Char)
  | [] => .error .ErrUnexpectedEOF
  | r :: rest => if c = r then .ok rest else .error .noMatch

/-- One round of `doScanf` at the verb `%d` with an `*int` operand: `SkipSpace`, then
`scanOne`, which calls `scanInt`. -/
def scanVerbD (input : List Char) : Except failure (Int × List Char) :=
  match SkipSpace false input with
  | .error e => .error e
  | .ok rest => scanInt rest

/-- The method `Scan` of main.go:
`fmt.Fscanf(state, "v%d.%d.%d", &t.major, &t.minor, &t.patch)`, on the runes `state` still
holds; the runes left unread are returned with the tag. -/
def vtag.Scan (state : List Char) : Except failure (vtag × List Char) :=
  match advance 'v' state with
  | .error e => .error e
  | .ok s1 =>
    match scanVerbD s1 with
    | .error e => .error e
    | .ok (major, s2) =>
      match advance '.' s2 with
      | .error e => .error e
      | .ok s3 =>
        match scanVerbD s3 with
        | .error e => .error e
        | .ok (minor, s4) =>
          match advance '.' s4 with
          | .error e => .error e
          | .ok s5 =>
            match scanVerbD s5 with
            | .error e => .error e
            | .ok (patch, s6) => .ok ({ major := major, minor := minor, patch := patch }, s6)

/-- The constant `hugeWid` of fmt/scan.go: a scan state reports the end of the input once
it has read this many runes. -/
def hugeWid : Nat := 2 ^ 30

/-- The call `fmt.Fscan(strings.NewReader(text), &vtag)` of main.go and its test: the
operand has a `Scan` method, which is called on the unread input; an `io.EOF` it returns
becomes `io.ErrUnexpectedEOF`; nothing is required of the runes `Scan` leaves unread. -/
def Fscan (text : List Char) : Except failure vtag :=
  match vtag.Scan (text.take hugeWid) with
  | .ok (t, _) => .ok t
  | .error .EOF => .error .ErrUnexpectedEOF
  | .error e => .error e

/-! ## The tagger interface and the increment workflow -/

/-- The interface `tagger` of main.go over a store of type `σ`.  A method takes the store
and returns its result with the store as the call leaves it. -/
structure tagger (σ : Type) where
  /-- The method `tags() ([]vtag, error)`. -/
  tags : σ → Except failure (List vtag) × σ
  /-- The method `latest() (vtag, error)`. -/
  latest : σ → Except failure vtag × σ
  /-- The method `create(t vtag) error`. -/
  create : vtag → σ → Except failure Unit × σ

/-- The function `increment` of main.go: `latest()`, whose error is returned wrapped, then
`create(increment(latest))`.  A panic of `latest()` unwinds through the function. -/
def increment {σ : Type} (tg : tagger σ) (inc : vtag → vtag) (s : σ) :
    Except failure Unit × σ :=
  match tg.latest s with
  | (.error err, s1) =>
    if err.isPanic then (.error err, s1)
    else (.error (.wrapped "failed to get latest tag".toList err), s1)
  | (.ok latest, s1) => tg.create (inc latest) s1

/-- The function `major` of main.go. -/
def major {σ : Type} (tg : tagger σ) (s : σ) : Except failure Unit × σ :=
  increment tg vtag.incrementMajor s

/-- The function `minor` of main.go. -/
def minor {σ : Type} (tg : tagger σ) (s : σ) : Except failure Unit × σ :=
  increment tg vtag.incrementMinor s

/-- The function `patch` of main.go. -/
def patch {σ : Type} (tg : tagger σ) (s : σ) : Except failure Unit × σ :=
  increment tg vtag.incrementPatch s

/-- The three commands `initCLIApp` registers. -/
inductive command where
  | major
  | minor
  | patch
deriving DecidableEq, Repr

/-- The `Name` of a command. -/
def command.name : command → List Char
  | .major => "major".toList
  | .minor => "minor".toList
  | .patch => "patch".toList

/-- The `Action` of a command. -/
def command.action {σ : Type} (c : command) (tg : tagger σ) (s : σ) :
    Except failure Unit × σ :=
  match c with
  | .major => GoVtag.major tg s
  | .minor => GoVtag.minor tg s
  | .patch => GoVtag.patch tg s

/-- The increment transition the action of a command hands to `increment`. -/
def command.transition : command → vtag → vtag
  | .major => vtag.incrementMajor
  | .minor => vtag.incrementMinor
  | .patch => vtag.incrementPatch

/-- The function `run` of main.go on the argument vectors `[program, name]` that select a
command: the action of the command of that name.  Other argument vectors are handled by
the command-line library alone and are not modelled. -/
def run {σ : Type} (tg : tagger σ) (args : List (List Char)) (s : σ) :
    Option (Except failure Unit × σ) :=
  match args with
  | [_, name] =>
    match [command.major, command.minor, command.patch].find? (fun c => c.name = name) with
    | some c => some (c.action tg s)
    | none => none
  | _ => none

/-- The struct `memoryTagger` of main_test.go. -/
structure memoryTagger where
  all : List vtag
deriving DecidableEq, Repr

/-- The method `tags` of `memoryTagger`: `sortVtags(t.all); return t.all, nil`. -/
def memoryTagger.tags (t : memoryTagger) : Except failure (List vtag) × memoryTagger :=
  (.ok (sortVtags t.all), { all := sortVtags t.all })

/-- The method `latest` of `memoryTagger`: `return latestVtag(t.all), nil`; the slice of the
store is the one `latestVtag` sorts. -/
def memoryTagger.latest (t : memoryTagger) : Except failure vtag × memoryTagger :=
  ((latestVtag t.all).1, { all := (latestVtag t.all).2 })

/-- The method `create` of `memoryTagger`: `t.all = append(t.all, tag); return nil`. -/
def memoryTagger.create (tag : vtag) (t : memoryTagger) : Except failure Unit × memoryTagger :=
  (.ok (), { all := t.all ++ [tag] })

/-- The type `*memoryTagger` as a `tagger`. -/
def memoryTagger.asTagger : tagger memoryTagger :=
  { tags := memoryTagger.tags, latest := memoryTagger.latest, create := memoryTagger.create }

/-- A tag reference of the repository as the program reads it: the short name
(`tag.Name().Short()`) and the hash it points at. -/
structure reference where
  name : List Char
  hash : Nat
deriving DecidableEq, Repr

/-- The repository behind `gitTagger` as far as the program reads and writes it: the tag
references in the order `repo.Tags()` iterates them, and the hash `repo.Head()` resolves to,
if it resolves.  Reading and writing the storage is taken to succeed. -/
structure repository where
  tags : List reference
  head : Option Nat
deriving DecidableEq, Repr

/-- The struct `gitTagger` of main.go. -/
structure gitTagger where
  repo : repository
deriving DecidableEq, Repr

/-- The loop `tags.ForEach(...)` of `gitTagger.tags`: every reference name is scanned into a
tag that is appended to `vtags`; the first error of `fmt.Fscan` ends the iteration and is
returned. -/
def forEachTag : List reference → List vtag → Except failure (List vtag)
  | [], vtags => .ok vtags
  | tag :: rest, vtags =>
    match Fscan tag.name with
    | .error err => .error err
    | .ok t => forEachTag rest (vtags ++ [t])

/-- The method `tags` of `gitTagger`: the tags of all references, sorted; an error of the
iteration is returned wrapped. -/
def gitTagger.tags (t : gitTagger) : Except failure (List vtag) × gitTagger :=
  match forEachTag t.repo.tags [] with
  | .error err => (.error (.wrapped "failed to iterate tags".toList err), t)
  | .ok vtags => (.ok (sortVtags vtags), t)

/-- The method `latest` of `gitTagger`: `tags()`, whose error is returned as it is, then
`latestVtag(tags)`. -/
def gitTagger.latest (t : gitTagger) : Except failure vtag × gitTagger :=
  match (gitTagger.tags t).1 with
  | .error err => (.error err, t)
  | .ok tags => ((latestVtag tags).1, t)

/-- Modelled from the spec: the call `repo.Head()` of go-git, whose code is not among the
sources.  The spec asks the backend to "resolve the current head revision identifier" and
lets `Create` fail "if the head revision cannot be resolved": the result is the hash the
head resolves to, or the error of a reference that is not found. -/
def repository.Head (repo : repository) : Except failure Nat :=
  match repo.head with
  | none => .error .ErrReferenceNotFound
  | some hash => .ok hash

/-- Modelled from the spec: the call `repo.CreateTag(name, hash, nil)` of go-git, whose code
is not among the sources.  The spec has `Create` persist "a new reference named
`tag.Format()` pointing at the current head revision of the backing store" and fail "if a
reference with that exact name already exists": the result is the error that the tag
exists when a tag reference has the name, and the repository with the new reference added
otherwise. -/
def repository.CreateTag (repo : repository) (name : List Char) (hash : Nat) :
    Except failure repository :=
  if repo.tags.any (fun r => r.name = name) then .error .ErrTagExists
  else .ok { repo with tags := repo.tags ++ [{ name := name, hash := hash }] }

/-- The method `create` of `gitTagger`: `t.repo.Head()`, whose error is returned wrapped as
"failed to get head", then `t.repo.CreateTag(tag.String(), head.Hash(), nil)`, whose error
is returned as it is. -/
def gitTagger.create (tag : vtag) (t : gitTagger) : Except failure Unit × gitTagger :=
  match t.repo.Head with
  | .error err => (.error (.wrapped "failed to get head".toList err), t)
  | .ok head =>
    match t.repo.CreateTag tag.String head with
    | .error err => (.error err, t)
    | .ok repo => (.ok (), { repo := repo })

/-- The type `gitTagger` as a `tagger`. -/
def gitTagger.asTagger : tagger gitTagger :=
  { tags := gitTagger.tags, latest := gitTagger.latest, create := gitTagger.create }

/-- A store together with the arguments of the calls of `create` made so far, oldest
first. -/
structure recorder (σ : Type) where
  store : σ
  created : List vtag

/-- A tagger that behaves as `tg` and records every call of `create`. -/
def recording {σ : Type} (tg : tagger σ) : tagger (recorder σ) :=
  { tags := fun r => ((tg.tags r.store).1, { r with store := (tg.tags r.store).2 })
    latest := fun r => ((tg.latest r.store).1, { r with store := (tg.latest r.store).2 })
    create := fun t r =>
      ((tg.create t r.store).1,
        { store := (tg.create t r.store).2, created := r.created ++ [t] }) }

/-! ## Notions the statements and lemmas use -/

/-- The pieces of a text between its dots. -/
def splitDots : List Char → List (List Char)
  | [] => [[]]
  | c :: cs =>
    if c = '.' then [] :: splitDots cs
    else
      match splitDots cs with
      | [] => [[c]]
      | p :: ps => (c :: p) :: ps

/-- A blank: a space rune other than the newline. -/
def isBlank (r : Char) : Bool := isSpace r && r != '\n'

/-- Whether a piece begins with an integer: after blanks, if any, an optional sign and at
least one decimal digit. -/
def beginsWithInteger (piece : List Char) : Bool :=
  match piece.dropWhile isBlank with
  | [] => false
  | c :: rest =>
    if c ∈ sign then
      match rest with
      | [] => false
      | d :: _ => decide (d ∈ decimalDigits)
    else decide (c ∈ decimalDigits)

/-- The value `parseUintLoop` reaches from the accumulator when nothing overflows. -/
def decimalValue (ds : List Char) (n : Nat) : Nat :=
  ds.foldl (fun n c => n * 10 + (c.toNat - 48)) n

/-- The next rune to be read, if any, is no decimal digit. -/
def noDigitAhead (rest : List Char) : Prop := ∀ c, rest.head? = some c → c ∉ decimalDigits

/-- The integer a `%d` text stands for, read without any bound on the magnitude. -/
def unfmtInteger : List Char → Int
  | [] => 0
  | c :: cs => if c = '-' then -((decimalValue cs 0 : Nat) : Int) else (decimalValue (c :: cs) 0 : Nat)

/-- A run of decimal digits and nothing else, at least one. -/
def isDigits (p : List Char) : Bool := !p.isEmpty && p.all (fun d => decide (d ∈ decimalDigits))

/-- Whether the whole text is `v`, decimal digits, `.`, decimal digits, `.`, decimal digits
and nothing else. -/
def isExactTag (text : List Char) : Bool :=
  match text with
  | [] => false
  | c :: rest =>
    if c = 'v' then
      match splitDots rest with
      | [a, b, d] => isDigits a && isDigits b && isDigits d
      | _ => false
    else false

/-- The text of one integer as the verb `%d` reads it: blanks, if any, an optional sign and
decimal digits, at least one, and nothing else. -/
def isIntegerText (p : List Char) : Bool :=
  match p.dropWhile isBlank with
  | [] => false
  | c :: rest => if c ∈ sign then isDigits rest else isDigits (c :: rest)

/-- The dot-separated integer components of a text: the pieces between the dots of what
follows its first rune that are the text of an integer. -/
def integerComponents (text : List Char) : List (List Char) :=
  (splitDots (text.drop 1)).filter isIntegerText

/-- Whether, of the pieces between the dots of what follows the first rune of the text, the
first two are the text of an integer and the third is there and begins with an integer. -/
def hasThreeIntegers (text : List Char) : Bool :=
  match splitDots (text.drop 1) with
  | p1 :: p2 :: p3 :: _ => isIntegerText p1 && isIntegerText p2 && beginsWithInteger p3
  | _ => false

/-- A number as `%d` reads it once the blanks are skipped: an optional sign and decimal
digits, at least one, and nothing else. -/
def isSignedDigits (n : List Char) : Bool :=
  match n with
  | [] => false
  | c :: rest => if c ∈ sign then isDigits rest else isDigits (c :: rest)

/-- The integer such a text stands for, read without any bound on the magnitude. -/
def integerValue (p : List Char) : Int :=
  match p.dropWhile isBlank with
  | [] => 0
  | c :: rest =>
    if c = '-' then -((decimalValue rest 0 : Nat) : Int)
    else if c = '+' then ((decimalValue rest 0 : Nat) : Int)
    else ((decimalValue (c :: rest) 0 : Nat) : Int)

/-- Whether the text contains a space or a tab. -/
def hasSpaceOrTab (text : List Char) : Bool := text.any (fun c => c = ' ' || c = '\t')

/-- The tags of those reference names that parse, in the order of the references. -/
def parsedTags (refs : List reference) : List vtag :=
  refs.filterMap (fun tag => (Fscan tag.name).toOption)

/-- Numeric order of tags: the lexicographic order of the triples (major, minor, patch) of
integers. -/
def numericLess (a b : vtag) : Prop :=
  a.major < b.major ∨
    (a.major = b.major ∧ (a.minor < b.minor ∨ (a.minor = b.minor ∧ a.patch < b.patch)))

instance (a b : vtag) : Decidable (numericLess a b) := by
  unfold numericLess
  infer_instance

/-- The field of a tag that the transition of a command increments. -/
def command.field : command → vtag → Int
  | .major, t => t.major
  | .minor, t => t.minor
  | .patch, t => t.patch

/-- What is known of a piece of text `p` that `%d` has read as the integer `a`: the piece is
the text of one integer without a dot, `a` is its value and a value of `int`, and `a` is
negative only if the piece has a minus sign. -/
def readsAs (p : List Char) (a : Int) : Prop :=
  isIntegerText p = true ∧ integerValue p = a ∧ isInt a ∧ '.' ∉ p ∧ ('-' ∉ p → 0 ≤ a)

set_option maxRecDepth 10000

/-! ## Digits -/

theorem digit_mem (d : Nat) (h : d < 10) : Char.ofNat (48 + d) ∈ decimalDigits := by
  interval_cases d <;> decide

theorem digit_toNat (d : Nat) (h : d < 10) : (Char.ofNat (48 + d)).toNat - 48 = d := by
  interval_cases d <;> decide

theorem mem_digits_cases {c : Char} (h : c ∈ decimalDigits) :
    c = '0' ∨ c = '1' ∨ c = '2' ∨ c = '3' ∨ c = '4' ∨ c = '5' ∨ c = '6' ∨ c = '7' ∨
      c = '8' ∨ c = '9' := by
  simpa [decimalDigits] using h

theorem digit_facts {c : Char} (h : c ∈ decimalDigits) :
    ('0' ≤ c ∧ c ≤ '9') ∧ isSpace c = false ∧ c ≠ '\n' ∧ c ≠ '\r' ∧ c ∉ sign ∧
      c ≠ '+' ∧ c ≠ '-' ∧ c ≠ '.' ∧ c.toNat - 48 < 10 := by
  rcases mem_digits_cases h with h | h | h | h | h | h | h | h | h | h <;> subst h <;> decide

theorem le_decimalValue (ds : List Char) (n : Nat) : n ≤ decimalValue ds n := by
  induction ds generalizing n with
  | nil => simp [decimalValue]
  | cons c cs ih =>
    have := ih (n * 10 + (c.toNat - 48))
    simp only [decimalValue, List.foldl_cons] at this ⊢
    omega

theorem parseUintLoop_digits (ds : List Char) (n : Nat) (hd : ∀ c ∈ ds, c ∈ decimalDigits)
    (hv : decimalValue ds n < 2 ^ 64) : parseUintLoop ds n = (decimalValue ds n, none) := by
  induction ds generalizing n with
  | nil => simp [parseUintLoop, decimalValue]
  | cons c cs ih =>
    have hc := digit_facts (hd c (List.mem_cons_self c cs))
    have hv1 : decimalValue cs (n * 10 + (c.toNat - 48)) < 2 ^ 64 := by
      simpa [decimalValue] using hv
    have hle := le_decimalValue cs (n * 10 + (c.toNat - 48))
    have h1 : ¬ ((2 ^ 64 - 1) / 10 + 1 ≤ n) := by omega
    have h2 : ¬ (2 ^ 64 - 1 < n * 10 + (c.toNat - 48)) := by omega
    rw [parseUintLoop, if_pos hc.1, if_neg h1, if_neg h2,
      ih _ (fun x hx => hd x (List.mem_cons_of_mem c hx)) hv1]
    simp [decimalValue]

theorem fmtDigits_spec (fuel u : Nat) (buf : List Char) (h : u < fuel) :
    ∃ ds, fmtDigits fuel u buf = ds ++ buf ∧ ds ≠ [] ∧ (∀ c ∈ ds, c ∈ decimalDigits) ∧
      (∀ n, decimalValue ds n = n * 10 ^ ds.length + u) ∧ u < 10 ^ ds.length ∧
      (10 ^ ds.length ≤ 10 * u ∨ ds.length = 1) := by
  induction fuel generalizing u buf with
  | zero => omega
  | succ fuel ih =>
    by_cases hu : 10 ≤ u
    · obtain ⟨ds, hds, hne, hall, hval, hlt, hlen⟩ :=
        ih (u / 10) (Char.ofNat (48 + u - u / 10 * 10) :: buf) (by omega)
      have hdig : 48 + u - u / 10 * 10 = 48 + u % 10 := by omega
      refine ⟨ds ++ [Char.ofNat (48 + u % 10)], ?_, by simp, ?_, ?_, ?_, ?_⟩
      · rw [fmtDigits, if_pos hu, hds, hdig]
        simp
      · intro c hc
        rcases List.mem_append.1 hc with hc | hc
        · exact hall c hc
        · rw [List.mem_singleton.1 hc]
          exact digit_mem _ (Nat.mod_lt _ (by decide))
      · intro n
        have := hval n
        simp only [decimalValue, List.foldl_append, List.foldl_cons, List.foldl_nil,
          List.length_append, List.length_singleton] at this ⊢
        rw [this, digit_toNat _ (Nat.mod_lt _ (by decide)), pow_succ]
        have := Nat.div_add_mod u 10
        nlinarith
      · simp only [List.length_append, List.length_singleton, pow_succ]
        omega
      · left
        simp only [List.length_append, List.length_singleton, pow_succ]
        rcases hlen with hlen | hlen
        · omega
        · rw [hlen]
          omega
    · refine ⟨[Char.ofNat (48 + u)], ?_, by simp, ?_, ?_, ?_, ?_⟩
      · rw [fmtDigits, if_neg hu]
        simp
      · intro c hc
        rw [List.mem_singleton.1 hc]
        exact digit_mem _ (by omega)
      · intro n
        simp [decimalValue, digit_toNat u (by omega)]
      · simp
        omega
      · right
        simp

/-! ## Scanning back what `%d` wrote -/

theorem acceptAll_append (ok ds rest : List Char) (hd : ∀ c ∈ ds, c ∈ ok)
    (hr : ∀ c, rest.head? = some c → c ∉ ok) : acceptAll ok (ds ++ rest) = (ds, rest) := by
  induction ds with
  | nil =>
    cases rest with
    | nil => rfl
    | cons r rs => simp [acceptAll, hr r rfl]
  | cons d ds ih =>
    have ih := ih (fun c hc => hd c (List.mem_cons_of_mem d hc))
    simp [acceptAll, hd d (List.mem_cons_self d ds), ih]

theorem scanNumber_append (ds rest : List Char) (hne : ds ≠ [])
    (hd : ∀ c ∈ ds, c ∈ decimalDigits) (hr : noDigitAhead rest) :
    scanNumber decimalDigits (ds ++ rest) = .ok (ds, rest) := by
  cases ds with
  | nil => exact absurd rfl hne
  | cons d ds =>
    have h := acceptAll_append decimalDigits ds rest
      (fun c hc => hd c (List.mem_cons_of_mem d hc)) hr
    simp [scanNumber, hd d (List.mem_cons_self d ds), h]

theorem SkipSpace_digit (b : Bool) (c : Char) (rest : List Char) (h : c ∈ decimalDigits) :
    SkipSpace b (c :: rest) = .ok (c :: rest) := by
  have hc := digit_facts h
  simp [SkipSpace, hc.2.1, hc.2.2.1, hc.2.2.2.1]

theorem SkipSpace_minus (b : Bool) (rest : List Char) :
    SkipSpace b ('-' :: rest) = .ok ('-' :: rest) := by
  have h : isSpace '-' = false := by decide
  simp [SkipSpace, h]

theorem ParseUint_digits (ds : List Char) (u : Nat) (hne : ds ≠ [])
    (hd : ∀ c ∈ ds, c ∈ decimalDigits) (hv : decimalValue ds 0 = u) (hu : u < 2 ^ 64) :
    ParseUint ds = (u, none) := by
  rw [ParseUint, if_neg hne, parseUintLoop_digits ds 0 hd (by omega), hv]

theorem scanInt_fmtInteger (x : Int) (rest : List Char) (hx : isInt x)
    (hr : noDigitAhead rest) : scanInt (fmtInteger x ++ rest) = .ok (x, rest) := by
  obtain ⟨ds, hds, hne, hall, hval, -, -⟩ := fmtDigits_spec (x.natAbs + 1) x.natAbs [] (by omega)
  rw [List.append_nil] at hds
  have hv : decimalValue ds 0 = x.natAbs := by simpa using hval 0
  obtain ⟨hlo, hhi⟩ := hx
  simp only [minInt, maxInt] at hlo hhi
  by_cases hneg : x < 0
  · have hP := ParseUint_digits ds x.natAbs hne hall hv (by omega)
    have hsc := scanNumber_append ds rest hne hall hr
    have h1 : ¬ (9223372036854775808 < x.natAbs) := by omega
    have h2 : -|x| = x := by rw [abs_of_neg hneg, neg_neg]
    simp [fmtInteger, hneg, hds, scanInt, SkipSpace_minus, accept, sign, hsc, ParseInt, hP, h1,
      h2]
  · cases ds with
    | nil => exact absurd rfl hne
    | cons d ds =>
      have hd := digit_facts (hall d (List.mem_cons_self d ds))
      have hP := ParseUint_digits (d :: ds) x.natAbs hne hall hv (by omega)
      have hsc := scanNumber_append (d :: ds) rest hne hall hr
      have h1 : ¬ (9223372036854775808 ≤ x.natAbs) := by omega
      have h2 : ((x.natAbs : Nat) : Int) = x := by omega
      have hacc : accept sign (d :: (ds ++ rest)) = (none, d :: (ds ++ rest)) := by
        simp [accept, hd.2.2.2.2.1]
      rw [List.cons_append] at hsc
      simp [fmtInteger, hneg, hds, scanInt, SkipSpace_digit _ d _ (hall d (List.mem_cons_self d ds)),
        hacc, hsc, ParseInt, hP, h1, h2, hd.2.2.2.2.2.1, hd.2.2.2.2.2.2.1]

theorem fmtInteger_head (x : Int) :
    ∃ c cs, fmtInteger x = c :: cs ∧ (c = '-' ∨ c ∈ decimalDigits) := by
  obtain ⟨ds, hds, hne, hall, -, -, -⟩ := fmtDigits_spec (x.natAbs + 1) x.natAbs [] (by omega)
  rw [List.append_nil] at hds
  by_cases hneg : x < 0
  · exact ⟨'-', ds, by simp [fmtInteger, hneg, hds], Or.inl rfl⟩
  · cases ds with
    | nil => exact absurd rfl hne
    | cons d ds =>
      exact ⟨d, ds, by simp [fmtInteger, hneg, hds], Or.inr (hall d (List.mem_cons_self d ds))⟩

theorem fmtInteger_length (x : Int) (hx : isInt x) : (fmtInteger x).length ≤ 21 := by
  obtain ⟨ds, hds, -, -, -, -, hlen⟩ := fmtDigits_spec (x.natAbs + 1) x.natAbs [] (by omega)
  rw [List.append_nil] at hds
  obtain ⟨hlo, hhi⟩ := hx
  simp only [minInt, maxInt] at hlo hhi
  have hds20 : ds.length ≤ 20 := by
    by_contra hcon
    have h21 : 10 ^ 21 ≤ 10 ^ ds.length := Nat.pow_le_pow_right (by decide) (by omega)
    rcases hlen with hlen | hlen
    · have : 10 * x.natAbs ≤ 10 * 2 ^ 63 := by omega
      norm_num at h21 this
      omega
    · omega
  by_cases hneg : x < 0
  · simp [fmtInteger, hneg, hds]
    omega
  · simp [fmtInteger, hneg, hds]
    omega

theorem scanVerbD_fmtInteger (x : Int) (rest : List Char) (hx : isInt x)
    (hr : noDigitAhead rest) : scanVerbD (fmtInteger x ++ rest) = .ok (x, rest) := by
  obtain ⟨c, cs, hcs, hc⟩ := fmtInteger_head x
  have hskip : SkipSpace false (fmtInteger x ++ rest) = .ok (fmtInteger x ++ rest) := by
    rw [hcs, List.cons_append]
    rcases hc with hc | hc
    · rw [hc]
      exact SkipSpace_minus _ _
    · exact SkipSpace_digit _ _ _ hc
  simp [scanVerbD, hskip, scanInt_fmtInteger x rest hx hr]

theorem noDigitAhead_dot (rest : List Char) : noDigitAhead ('.' :: rest) := by
  intro c hc
  simp only [List.head?_cons, Option.some.injEq] at hc
  subst hc
  decide

theorem noDigitAhead_nil : noDigitAhead [] := by
  intro c hc
  simp at hc

theorem Scan_String (t : vtag) (rest : List Char) (ht : t.wellTyped) (hr : noDigitAhead rest) :
    vtag.Scan (t.String ++ rest) = .ok (t, rest) := by
  obtain ⟨h1, h2, h3⟩ := ht
  have e1 := scanVerbD_fmtInteger t.major
    ('.' :: (fmtInteger t.minor ++ '.' :: (fmtInteger t.patch ++ rest))) h1 (noDigitAhead_dot _)
  have e2 := scanVerbD_fmtInteger t.minor ('.' :: (fmtInteger t.patch ++ rest)) h2
    (noDigitAhead_dot _)
  have e3 := scanVerbD_fmtInteger t.patch rest h3 hr
  simp [vtag.Scan, vtag.String, advance, e1, e2, e3]

theorem String_length (t : vtag) (ht : t.wellTyped) : t.String.length ≤ 66 := by
  obtain ⟨h1, h2, h3⟩ := ht
  have l1 := fmtInteger_length _ h1
  have l2 := fmtInteger_length _ h2
  have l3 := fmtInteger_length _ h3
  simp [vtag.String]
  omega

/-- Parsing the text of a tag gives the tag back, for every tag whose fields are values of
`int`, negative ones included. -/
theorem Fscan_String_of_wellTyped (t : vtag) (ht : t.wellTyped) : Fscan t.String = .ok t := by
  have hlen := String_length t ht
  have htake : List.take hugeWid t.String = t.String :=
    List.take_of_length_le (by simp only [hugeWid]; omega)
  have h := Scan_String t [] ht noDigitAhead_nil
  rw [List.append_nil] at h
  simp [Fscan, htake, h]

/-! ## The text of a tag determines the tag -/

theorem unfmtInteger_fmtInteger (x : Int) : unfmtInteger (fmtInteger x) = x := by
  obtain ⟨ds, hds, hne, hall, hval, -, -⟩ := fmtDigits_spec (x.natAbs + 1) x.natAbs [] (by omega)
  rw [List.append_nil] at hds
  have hv : decimalValue ds 0 = x.natAbs := by simpa using hval 0
  by_cases hneg : x < 0
  · simp only [fmtInteger, hneg, if_true, hds, unfmtInteger, hv]
    omega
  · cases ds with
    | nil => exact absurd rfl hne
    | cons d ds =>
      have hd := digit_facts (hall d (List.mem_cons_self d ds))
      simp only [fmtInteger, hneg, if_false, hds, unfmtInteger, hv, if_neg hd.2.2.2.2.2.2.1]
      omega

theorem fmtInteger_injective {x y : Int} (h : fmtInteger x = fmtInteger y) : x = y := by
  rw [← unfmtInteger_fmtInteger x, ← unfmtInteger_fmtInteger y, h]

theorem dot_not_mem_fmtInteger (x : Int) : '.' ∉ fmtInteger x := by
  obtain ⟨ds, hds, -, hall, -, -, -⟩ := fmtDigits_spec (x.natAbs + 1) x.natAbs [] (by omega)
  rw [List.append_nil] at hds
  have hdot : '.' ∉ ds := fun h => (digit_facts (hall _ h)).2.2.2.2.2.2.2.1 rfl
  by_cases hneg : x < 0
  · simp only [fmtInteger, hneg, if_true, hds, List.mem_cons, not_or]
    exact ⟨by decide, hdot⟩
  · simpa only [fmtInteger, hneg, if_false, hds] using hdot

theorem append_dot_inj {a b x y : List Char} (ha : '.' ∉ a) (hb : '.' ∉ b)
    (h : a ++ '.' :: x = b ++ '.' :: y) : a = b ∧ x = y := by
  induction a generalizing b with
  | nil =>
    cases b with
    | nil => simpa using h
    | cons c b =>
      simp only [List.nil_append, List.cons_append, List.cons.injEq] at h
      exact absurd (by rw [← h.1]; exact List.mem_cons_self _ _) hb
  | cons c a ih =>
    cases b with
    | nil =>
      simp only [List.nil_append, List.cons_append, List.cons.injEq] at h
      exact absurd (by rw [h.1]; exact List.mem_cons_self _ _) ha
    | cons d b =>
      simp only [List.cons_append, List.cons.injEq] at h
      obtain ⟨h1, h2⟩ := ih (fun hm => ha (List.mem_cons_of_mem _ hm))
        (fun hm => hb (List.mem_cons_of_mem _ hm)) h.2
      exact ⟨by rw [h.1, h1], h2⟩

/-- Two tags with the same text are the same tag, whatever their fields. -/
theorem String_injective {a b : vtag} (h : a.String = b.String) : a = b := by
  simp only [vtag.String, List.cons.injEq, true_and] at h
  obtain ⟨h1, h⟩ := append_dot_inj (dot_not_mem_fmtInteger _) (dot_not_mem_fmtInteger _) h
  obtain ⟨h2, h3⟩ := append_dot_inj (dot_not_mem_fmtInteger _) (dot_not_mem_fmtInteger _) h
  cases a
  cases b
  simp only [vtag.mk.injEq]
  exact ⟨fmtInteger_injective h1, fmtInteger_injective h2, fmtInteger_injective h3⟩

/-! ## Sorting -/

theorem sortVtags_perm (tags : List vtag) : List.Perm (sortVtags tags) tags :=
  List.perm_insertionSort _ tags

theorem sortVtags_pairwise (tags : List vtag) :
    List.Pairwise (fun a b => a.String ≤ b.String) (sortVtags tags) := by
  haveI : IsTotal vtag (fun a b => vtagLess b a = false) :=
    ⟨fun a b => by
      have := le_total a.String b.String
      simpa [vtagLess] using this⟩
  haveI : IsTrans vtag (fun a b => vtagLess b a = false) :=
    ⟨fun a b c hab hbc => by
      simp only [vtagLess, decide_eq_false_iff_not, not_lt] at hab hbc ⊢
      exact le_trans hab hbc⟩
  have h := List.sorted_insertionSort (fun a b : vtag => vtagLess b a = false) tags
  refine List.Pairwise.imp ?_ h
  intro a b hab
  simpa [vtagLess] using hab

theorem sortVtags_length (tags : List vtag) : (sortVtags tags).length = tags.length :=
  (sortVtags_perm tags).length_eq

/-- The library leaves nothing open on tags: a reordering of the slice in which no element
is less than an earlier one is the one `sortVtags` produces. -/
theorem sortSlice_unique (tags sorted : List vtag) (hp : List.Perm sorted tags)
    (hs : List.Pairwise (fun a b => vtagLess b a = false) sorted) : sorted = sortVtags tags := by
  haveI : IsAntisymm vtag (fun a b => a.String ≤ b.String) :=
    ⟨fun a b h1 h2 => String_injective (le_antisymm h1 h2)⟩
  have hs1 : List.Pairwise (fun a b : vtag => a.String ≤ b.String) sorted := by
    refine List.Pairwise.imp ?_ hs
    intro a b hab
    simpa [vtagLess] using hab
  exact List.eq_of_perm_of_sorted (hp.trans (sortVtags_perm tags).symm) hs1
    (sortVtags_pairwise tags)

/-! ## The latest tag -/

theorem index_last (s : List vtag) (hs : s ≠ []) :
    index s ((s.length : Int) - 1) = .ok (s.getLast hs) := by
  have hlen : 0 < s.length := List.length_pos.2 hs
  have hcond : 0 ≤ (s.length : Int) - 1 ∧ (s.length : Int) - 1 < s.length := by omega
  have hnat : ((s.length : Int) - 1).toNat = s.length - 1 := by omega
  have hget : s.get? (s.length - 1) = some (s.getLast hs) := by
    rw [List.get?_eq_getElem?, ← List.getLast?_eq_getElem?, List.getLast?_eq_getLast _ hs]
  simp only [index, hcond, and_self, if_true, hnat, hget]

theorem latestVtag_spec (tags : List vtag) (h : tags ≠ []) :
    ∃ v, latestVtag tags = (.ok v, sortVtags tags) ∧ v ∈ tags ∧
      ∀ u ∈ tags, u.String ≤ v.String := by
  have hs : sortVtags tags ≠ [] := by
    intro h0
    have := sortVtags_length tags
    rw [h0] at this
    exact h (List.length_eq_zero.1 this.symm)
  refine ⟨(sortVtags tags).getLast hs, ?_, ?_, ?_⟩
  · simp only [latestVtag, index_last _ hs]
  · exact (sortVtags_perm tags).mem_iff.1 (List.getLast_mem hs)
  · intro u hu
    have hu1 : u ∈ sortVtags tags := (sortVtags_perm tags).mem_iff.2 hu
    have hp := sortVtags_pairwise tags
    rw [← List.dropLast_append_getLast hs] at hu1 hp
    rcases List.mem_append.1 hu1 with hu2 | hu2
    · exact (List.pairwise_append.1 hp).2.2 u hu2 _ (List.mem_singleton_self _)
    · rw [List.mem_singleton.1 hu2]

theorem latestVtag_eq_of_max (tags : List vtag) (v : vtag) (hv : v ∈ tags)
    (hmax : ∀ u ∈ tags, u.String ≤ v.String) : latestVtag tags = (.ok v, sortVtags tags) := by
  obtain ⟨w, hw, hmem, hwmax⟩ := latestVtag_spec tags (List.ne_nil_of_mem hv)
  have : w = v := String_injective (le_antisymm (hmax w hmem) (hwmax v hv))
  rw [hw, this]

/-! ## The claims -/

/-- Claim C1: for all ints a, b, c ≥ 0, parsing the text that `String` writes for the tag
{a, b, c} succeeds and gives exactly {a, b, c}; in particular "v0.0.0" parses to {0, 0, 0}
and "v1.2.3" to {1, 2, 3}. -/
theorem parse_format_roundtrip (a b c : Int) (ha : 0 ≤ a ∧ a ≤ maxInt) (hb : 0 ≤ b ∧ b ≤ maxInt)
    (hc : 0 ≤ c ∧ c ≤ maxInt) :
    Fscan (vtag.String { major := a, minor := b, patch := c })
        = .ok { major := a, minor := b, patch := c } ∧
      Fscan "v0.0.0".toList = .ok { major := 0, minor := 0, patch := 0 } ∧
      Fscan "v1.2.3".toList = .ok { major := 1, minor := 2, patch := 3 } := by
  refine ⟨Fscan_String_of_wellTyped _ ?_, by decide, by decide⟩
  have hmin : minInt ≤ 0 := by decide
  exact ⟨⟨le_trans hmin ha.1, ha.2⟩, ⟨le_trans hmin hb.1, hb.2⟩, ⟨le_trans hmin hc.1, hc.2⟩⟩

/-- Witness of claim C1 at the tag {12, 0, 345}. -/
theorem parse_format_roundtrip_witness :
    ((0 : Int) ≤ 12 ∧ (12 : Int) ≤ maxInt) ∧ ((0 : Int) ≤ 0 ∧ (0 : Int) ≤ maxInt) ∧
      ((0 : Int) ≤ 345 ∧ (345 : Int) ≤ maxInt) ∧
      Fscan (vtag.String { major := 12, minor := 0, patch := 345 })
        = .ok { major := 12, minor := 0, patch := 345 } :=
  ⟨by decide, by decide, by decide,
    (parse_format_roundtrip 12 0 345 (by decide) (by decide) (by decide)).1⟩

/-- Claim C2, counterexample: at the largest int the sum `major + 1` wraps around, so
`incrementMajor` of {9223372036854775807, 4, 5} is {-9223372036854775808, 0, 0} and not
{9223372036854775808, 0, 0}. -/
theorem incrementMajor_wraps_at_maxInt :
    vtag.wellTyped { major := 9223372036854775807, minor := 4, patch := 5 } ∧
      vtag.incrementMajor { major := 9223372036854775807, minor := 4, patch := 5 }
        = { major := -9223372036854775808, minor := 0, patch := 0 } ∧
      vtag.incrementMajor { major := 9223372036854775807, minor := 4, patch := 5 }
        ≠ { major := 9223372036854775807 + 1, minor := 0, patch := 0 } := by
  decide

/-- Claim C2, as amended: for every tag {x, y, z} whose major x is an int below the largest
int, `incrementMajor` returns {x+1, 0, 0}: major is incremented by one and minor and patch
are reset to zero regardless of their prior values. -/
theorem incrementMajor_below_maxInt (x y z : Int) (hx : isInt x) (hmax : x < maxInt) :
    vtag.incrementMajor { major := x, minor := y, patch := z }
      = { major := x + 1, minor := 0, patch := 0 } := by
  obtain ⟨hlo, -⟩ := hx
  simp only [minInt, maxInt] at hlo hmax
  simp only [vtag.incrementMajor, wrapInt, vtag.mk.injEq, and_self, and_true]
  omega

/-- Witness of the amended claim C2 at the tag {1, 2, 3}. -/
theorem incrementMajor_below_maxInt_witness :
    isInt 1 ∧ (1 : Int) < maxInt ∧
      vtag.incrementMajor { major := 1, minor := 2, patch := 3 }
        = { major := 1 + 1, minor := 0, patch := 0 } :=
  ⟨by decide, by decide, incrementMajor_below_maxInt 1 2 3 (by decide) (by decide)⟩

/-- Claim C3, counterexample: at the largest int the sum `minor + 1` wraps around, so
`incrementMinor` of {4, 9223372036854775807, 5} is {4, -9223372036854775808, 0} and not
{4, 9223372036854775808, 0}. -/
theorem incrementMinor_wraps_at_maxInt :
    vtag.wellTyped { major := 4, minor := 9223372036854775807, patch := 5 } ∧
      vtag.incrementMinor { major := 4, minor := 9223372036854775807, patch := 5 }
        = { major := 4, minor := -9223372036854775808, patch := 0 } ∧
      vtag.incrementMinor { major := 4, minor := 9223372036854775807, patch := 5 }
        ≠ { major := 4, minor := 9223372036854775807 + 1, patch := 0 } := by
  decide

/-- Claim C3, as amended: for every tag {x, y, z} whose minor y is an int below the largest
int, `incrementMinor` returns {x, y+1, 0}: major is preserved, minor is incremented by one
and patch is reset to zero. -/
theorem incrementMinor_below_maxInt (x y z : Int) (hy : isInt y) (hmax : y < maxInt) :
    vtag.incrementMinor { major := x, minor := y, patch := z }
      = { major := x, minor := y + 1, patch := 0 } := by
  obtain ⟨hlo, -⟩ := hy
  simp only [minInt, maxInt] at hlo hmax
  simp only [vtag.incrementMinor, wrapInt, vtag.mk.injEq, and_true, true_and]
  omega

/-- Witness of the amended claim C3 at the tag {1, 2, 3}. -/
theorem incrementMinor_below_maxInt_witness :
    isInt 2 ∧ (2 : Int) < maxInt ∧
      vtag.incrementMinor { major := 1, minor := 2, patch := 3 }
        = { major := 1, minor := 2 + 1, patch := 0 } :=
  ⟨by decide, by decide, incrementMinor_below_maxInt 1 2 3 (by decide) (by decide)⟩

/-- Claim C4, counterexample: at the largest int the sum `patch + 1` wraps around, so
`incrementPatch` of {4, 5, 9223372036854775807} is {4, 5, -9223372036854775808} and not
{4, 5, 9223372036854775808}. -/
theorem incrementPatch_wraps_at_maxInt :
    vtag.wellTyped { major := 4, minor := 5, patch := 9223372036854775807 } ∧
      vtag.incrementPatch { major := 4, minor := 5, patch := 9223372036854775807 }
        = { major := 4, minor := 5, patch := -9223372036854775808 } ∧
      vtag.incrementPatch { major := 4, minor := 5, patch := 9223372036854775807 }
        ≠ { major := 4, minor := 5, patch := 9223372036854775807 + 1 } := by
  decide

/-- Claim C4, as amended: for every tag {x, y, z} whose patch z is an int below the largest
int, `incrementPatch` returns {x, y, z+1}: major and minor are preserved and patch is
incremented by one. -/
theorem incrementPatch_below_maxInt (x y z : Int) (hz : isInt z) (hmax : z < maxInt) :
    vtag.incrementPatch { major := x, minor := y, patch := z }
      = { major := x, minor := y, patch := z + 1 } := by
  obtain ⟨hlo, -⟩ := hz
  simp only [minInt, maxInt] at hlo hmax
  simp only [vtag.incrementPatch, wrapInt, vtag.mk.injEq, true_and]
  omega

/-- Witness of the amended claim C4 at the tag {1, 2, 3}. -/
theorem incrementPatch_below_maxInt_witness :
    isInt 3 ∧ (3 : Int) < maxInt ∧
      vtag.incrementPatch { major := 1, minor := 2, patch := 3 }
        = { major := 1, minor := 2, patch := 3 + 1 } :=
  ⟨by decide, by decide, incrementPatch_below_maxInt 1 2 3 (by decide) (by decide)⟩

/-- Claim C5: the order is the lexicographic order of the `String` texts: `sortVtags` leaves
a permutation of the input in which the text of each element is at most (as a string) the
text of the element after it; {0, 10, 0} ("v0.10.0") is placed before {0, 2, 0}
("v0.2.0"). -/
theorem sortVtags_orders_by_text :
    (∀ tags : List vtag, List.Perm (sortVtags tags) tags ∧
      List.Chain' (fun a b => a.String ≤ b.String) (sortVtags tags)) ∧
    vtag.String { major := 0, minor := 10, patch := 0 } = "v0.10.0".toList ∧
    vtag.String { major := 0, minor := 2, patch := 0 } = "v0.2.0".toList ∧
    "v0.10.0".toList < "v0.2.0".toList ∧
    sortVtags [{ major := 0, minor := 2, patch := 0 }, { major := 0, minor := 10, patch := 0 }]
      = [{ major := 0, minor := 10, patch := 0 }, { major := 0, minor := 2, patch := 0 }] := by
  refine ⟨fun tags => ⟨sortVtags_perm tags, ?_⟩, by decide, by decide, by decide, by decide⟩
  exact List.Pairwise.chain' (sortVtags_pairwise tags)

/-- Claim C6: for every non-empty list of tags, the index `len(tags)-1` that `latestVtag`
reads is in bounds, and `latestVtag` (and so `latest()` of an in-memory tagger holding the
list, and of a git tagger whose references scan to the list) returns an element of the list
whose text is greater than or equal to, in string order, the text of every element. -/
theorem latestVtag_returns_maximum (tags : List vtag) (h : tags ≠ []) :
    ((sortVtags tags).length = tags.length ∧
      0 ≤ (tags.length : Int) - 1 ∧ (tags.length : Int) - 1 < tags.length) ∧
    ∃ v, (latestVtag tags).1 = .ok v ∧ v ∈ tags ∧ (∀ u ∈ tags, u.String ≤ v.String) ∧
      (memoryTagger.latest { all := tags }).1 = .ok v ∧
      ∀ g : gitTagger, forEachTag g.repo.tags [] = .ok tags → (gitTagger.latest g).1 = .ok v := by
  have hlen : 0 < tags.length := List.length_pos.2 h
  refine ⟨⟨sortVtags_length tags, by omega, by omega⟩, ?_⟩
  obtain ⟨v, hv, hmem, hmax⟩ := latestVtag_spec tags h
  refine ⟨v, by rw [hv], hmem, hmax, by simp only [memoryTagger.latest, hv], ?_⟩
  intro g hg
  have hmem1 : v ∈ sortVtags tags := (sortVtags_perm tags).mem_iff.2 hmem
  have hmax1 : ∀ u ∈ sortVtags tags, u.String ≤ v.String :=
    fun u hu => hmax u ((sortVtags_perm tags).mem_iff.1 hu)
  simp only [gitTagger.latest, gitTagger.tags, hg, latestVtag_eq_of_max _ v hmem1 hmax1]

/-- Witness of claim C6 at the tags v0.1.3, v1.2.3, v0.2.1, of which v1.2.3 is returned. -/
theorem latestVtag_returns_maximum_witness :
    ([{ major := 0, minor := 1, patch := 3 }, { major := 1, minor := 2, patch := 3 },
        { major := 0, minor := 2, patch := 1 }] : List vtag) ≠ [] ∧
    (latestVtag [{ major := 0, minor := 1, patch := 3 }, { major := 1, minor := 2, patch := 3 },
        { major := 0, minor := 2, patch := 1 }]).1 = .ok { major := 1, minor := 2, patch := 3 } ∧
    ∃ v, (latestVtag [{ major := 0, minor := 1, patch := 3 },
        { major := 1, minor := 2, patch := 3 }, { major := 0, minor := 2, patch := 1 }]).1 = .ok v ∧
      v ∈ ([{ major := 0, minor := 1, patch := 3 }, { major := 1, minor := 2, patch := 3 },
        { major := 0, minor := 2, patch := 1 }] : List vtag) :=
  ⟨by decide, by decide,
    (latestVtag_returns_maximum _ (by decide)).2.imp fun _ hv => ⟨hv.1, hv.2.1⟩⟩

theorem action_eq_increment {σ : Type} (c : command) (tg : tagger σ) (s : σ) :
    c.action tg s = increment tg c.transition s := by
  cases c <;> rfl

theorem action_memoryTagger (tags : List vtag) (v : vtag) (c : command)
    (hv : latestVtag tags = (.ok v, sortVtags tags)) :
    c.action memoryTagger.asTagger { all := tags }
      = (.ok (), { all := sortVtags tags ++ [c.transition v] }) := by
  simp only [action_eq_increment, increment, memoryTagger.asTagger, memoryTagger.latest, hv,
    memoryTagger.create]

/-- Claim C7: for every in-memory tagger holding a non-empty list of tags and each command
c, the workflow succeeds and calls `create` exactly once, with the transition of c applied
to the tag `latest()` returns; afterwards the store holds the previous tags (reordered by
the sort) followed by exactly that one new tag.  From the tags v0.1.3, v0.2.1, v1.2.3 the
tag created is v2.0.0 for major, v1.3.0 for minor and v1.2.4 for patch. -/
theorem increment_creates_exactly_one_tag (tags : List vtag) (h : tags ≠ []) (c : command) :
    (∃ v, (memoryTagger.latest { all := tags }).1 = .ok v ∧
      c.action (recording memoryTagger.asTagger) { store := { all := tags }, created := [] }
        = (.ok (), { store := { all := sortVtags tags ++ [c.transition v] },
                     created := [c.transition v] }) ∧
      run (recording memoryTagger.asTagger) ["/program".toList, c.name]
          { store := { all := tags }, created := [] }
        = some (.ok (), { store := { all := sortVtags tags ++ [c.transition v] },
                          created := [c.transition v] }) ∧
      List.Perm (sortVtags tags ++ [c.transition v]) (tags ++ [c.transition v])) ∧
    (command.action .major (recording memoryTagger.asTagger)
        { store := { all := [{ major := 0, minor := 1, patch := 3 },
            { major := 0, minor := 2, patch := 1 }, { major := 1, minor := 2, patch := 3 }] },
          created := [] }).2.created = [{ major := 2, minor := 0, patch := 0 }] ∧
    (command.action .minor (recording memoryTagger.asTagger)
        { store := { all := [{ major := 0, minor := 1, patch := 3 },
            { major := 0, minor := 2, patch := 1 }, { major := 1, minor := 2, patch := 3 }] },
          created := [] }).2.created = [{ major := 1, minor := 3, patch := 0 }] ∧
    (command.action .patch (recording memoryTagger.asTagger)
        { store := { all := [{ major := 0, minor := 1, patch := 3 },
            { major := 0, minor := 2, patch := 1 }, { major := 1, minor := 2, patch := 3 }] },
          created := [] }).2.created = [{ major := 1, minor := 2, patch := 4 }] := by
  refine ⟨?_, by decide, by decide, by decide⟩
  obtain ⟨v, hv, -, -⟩ := latestVtag_spec tags h
  have hact : c.action (recording memoryTagger.asTagger)
      { store := { all := tags }, created := [] }
        = (.ok (), { store := { all := sortVtags tags ++ [c.transition v] },
                     created := [c.transition v] }) := by
    simp only [action_eq_increment, increment, recording, memoryTagger.asTagger,
      memoryTagger.latest, hv, memoryTagger.create, List.nil_append]
  refine ⟨v, by simp only [memoryTagger.latest, hv], hact, ?_,
    (sortVtags_perm tags).append_right _⟩
  rw [← hact]
  cases c <;> rfl

/-- Witness of claim C7 at the tags v0.1.3, v0.2.1, v1.2.3 and the command minor. -/
theorem increment_creates_exactly_one_tag_witness :
    ([{ major := 0, minor := 1, patch := 3 }, { major := 0, minor := 2, patch := 1 },
        { major := 1, minor := 2, patch := 3 }] : List vtag) ≠ [] ∧
    ∃ v, (memoryTagger.latest { all := [{ major := 0, minor := 1, patch := 3 },
        { major := 0, minor := 2, patch := 1 }, { major := 1, minor := 2, patch := 3 }] }).1
          = .ok v ∧
      (command.action .minor (recording memoryTagger.asTagger)
        { store := { all := [{ major := 0, minor := 1, patch := 3 },
            { major := 0, minor := 2, patch := 1 }, { major := 1, minor := 2, patch := 3 }] },
          created := [] }).2.created = [command.transition .minor v] :=
  ⟨by decide,
    (increment_creates_exactly_one_tag _ (by decide) .minor).1.imp fun _ hv =>
      ⟨hv.1, by rw [hv.2.1]⟩⟩

/-- Claim C8, counterexample: a tagger holding v9.0.0 creates v10.0.0 on major, and
`latest()` still returns v9.0.0 afterwards, because "v10.0.0" is below "v9.0.0" in string
order; the same happens for minor from v0.9.0 and for patch from v0.0.9. -/
theorem latest_after_run_is_not_the_new_tag :
    ((memoryTagger.latest { all := [{ major := 9, minor := 0, patch := 0 }] }).1
        = .ok { major := 9, minor := 0, patch := 0 } ∧
      command.transition .major { major := 9, minor := 0, patch := 0 }
        = { major := 10, minor := 0, patch := 0 } ∧
      (command.action .major memoryTagger.asTagger
          { all := [{ major := 9, minor := 0, patch := 0 }] }).1 = .ok () ∧
      (memoryTagger.latest (command.action .major memoryTagger.asTagger
          { all := [{ major := 9, minor := 0, patch := 0 }] }).2).1
        = .ok { major := 9, minor := 0, patch := 0 } ∧
      (memoryTagger.latest (command.action .major memoryTagger.asTagger
          { all := [{ major := 9, minor := 0, patch := 0 }] }).2).1
        ≠ .ok (command.transition .major { major := 9, minor := 0, patch := 0 })) ∧
    ((memoryTagger.latest { all := [{ major := 0, minor := 9, patch := 0 }] }).1
        = .ok { major := 0, minor := 9, patch := 0 } ∧
      (memoryTagger.latest (command.action .minor memoryTagger.asTagger
          { all := [{ major := 0, minor := 9, patch := 0 }] }).2).1
        ≠ .ok (command.transition .minor { major := 0, minor := 9, patch := 0 })) ∧
    ((memoryTagger.latest { all := [{ major := 0, minor := 0, patch := 9 }] }).1
        = .ok { major := 0, minor := 0, patch := 9 } ∧
      (memoryTagger.latest (command.action .patch memoryTagger.asTagger
          { all := [{ major := 0, minor := 0, patch := 9 }] }).2).1
        ≠ .ok (command.transition .patch { major := 0, minor := 0, patch := 9 })) := by
  decide

/-- Claim C8, as amended: for every in-memory tagger holding a non-empty list of tags and
each command c, after the workflow runs `latest()` returns the newly created tag (the
transition of c applied to the tag `latest()` returned before the run) when the text of the
new tag is greater than or equal to, in string order, the text of that earlier tag, and
returns the earlier tag again otherwise. -/
theorem latest_after_run (tags : List vtag) (h : tags ≠ []) (c : command) :
    ∃ v, (memoryTagger.latest { all := tags }).1 = .ok v ∧
      (memoryTagger.latest (c.action memoryTagger.asTagger { all := tags }).2).1
        = .ok (if v.String ≤ (c.transition v).String then c.transition v else v) := by
  obtain ⟨v, hv, hmem, hmax⟩ := latestVtag_spec tags h
  refine ⟨v, by simp only [memoryTagger.latest, hv], ?_⟩
  rw [action_memoryTagger tags v c hv]
  have hsub : ∀ u ∈ sortVtags tags ++ [c.transition v],
      u = c.transition v ∨ u.String ≤ v.String := by
    intro u hu
    rcases List.mem_append.1 hu with hu | hu
    · exact Or.inr (hmax u ((sortVtags_perm tags).mem_iff.1 hu))
    · exact Or.inl (List.mem_singleton.1 hu)
  by_cases hle : v.String ≤ (c.transition v).String
  · have hlatest := latestVtag_eq_of_max (sortVtags tags ++ [c.transition v]) (c.transition v)
      (by simp) (fun u hu => by
        rcases hsub u hu with hu | hu
        · rw [hu]
        · exact le_trans hu hle)
    simp only [memoryTagger.latest, hlatest, if_pos hle]
  · have hlatest := latestVtag_eq_of_max (sortVtags tags ++ [c.transition v]) v
      (List.mem_append_left _ ((sortVtags_perm tags).mem_iff.2 hmem)) (fun u hu => by
        rcases hsub u hu with hu | hu
        · rw [hu]
          exact le_of_lt (not_le.1 hle)
        · exact hu)
    simp only [memoryTagger.latest, hlatest, if_neg hle]

/-- Witness of the amended claim C8 at the tags v0.1.3, v0.2.1, v1.2.3 and the command
major, after which `latest()` returns v2.0.0. -/
theorem latest_after_run_witness :
    ([{ major := 0, minor := 1, patch := 3 }, { major := 0, minor := 2, patch := 1 },
        { major := 1, minor := 2, patch := 3 }] : List vtag) ≠ [] ∧
    (memoryTagger.latest (command.action .major memoryTagger.asTagger
        { all := [{ major := 0, minor := 1, patch := 3 }, { major := 0, minor := 2, patch := 1 },
          { major := 1, minor := 2, patch := 3 }] }).2).1
      = .ok { major := 2, minor := 0, patch := 0 } ∧
    ∃ v, (memoryTagger.latest { all := [{ major := 0, minor := 1, patch := 3 },
        { major := 0, minor := 2, patch := 1 }, { major := 1, minor := 2, patch := 3 }] }).1
          = .ok v ∧
      (memoryTagger.latest (command.action .major memoryTagger.asTagger
        { all := [{ major := 0, minor := 1, patch := 3 }, { major := 0, minor := 2, patch := 1 },
          { major := 1, minor := 2, patch := 3 }] }).2).1
        = .ok (if v.String ≤ (command.transition .major v).String
            then command.transition .major v else v) :=
  ⟨by decide, by decide, latest_after_run _ (by decide) .major⟩

/-- Claim C9: when the tagger holds zero tags, `latest()` fails, by the panic of the index
`tags[len(tags)-1]` at -1 in `latestVtag`, and for every command the workflow fails,
`create` is never called and the store is left as it was, still empty; this holds for the
in-memory tagger and for a git tagger without tag references. -/
theorem empty_history_fails :
    (latestVtag []).1 = .error (.indexOutOfRange (-1) 0) ∧
    failure.isPanic (.indexOutOfRange (-1) 0) = true ∧
    memoryTagger.latest { all := [] } = (.error (.indexOutOfRange (-1) 0), { all := [] }) ∧
    (∀ c : command,
      c.action (recording memoryTagger.asTagger) { store := { all := [] }, created := [] }
        = (.error (.indexOutOfRange (-1) 0), { store := { all := [] }, created := [] })) ∧
    (∀ head : Option Nat,
      gitTagger.latest { repo := { tags := [], head := head } }
        = (.error (.indexOutOfRange (-1) 0), { repo := { tags := [], head := head } })) ∧
    (∀ (c : command) (head : Option Nat),
      c.action (recording gitTagger.asTagger)
          { store := { repo := { tags := [], head := head } }, created := [] }
        = (.error (.indexOutOfRange (-1) 0),
            { store := { repo := { tags := [], head := head } }, created := [] })) := by
  refine ⟨by decide, rfl, by decide, ?_, ?_, ?_⟩
  · intro c
    cases c <;> rfl
  · intro head
    rfl
  · intro c head
    cases c <;> rfl

/-! ## What a successful scan has read -/

theorem SkipSpace_ok (s s1 : List Char) (h : SkipSpace false s = .ok s1) :
    ∃ sp, s = sp ++ s1 ∧ (∀ c ∈ sp, isBlank c = true) ∧
      ∀ c, s1.head? = some c → isBlank c = false := by
  induction s with
  | nil =>
    simp only [SkipSpace, Except.ok.injEq] at h
    subst h
    exact ⟨[], rfl, by simp, by simp⟩
  | cons r rest ih =>
    rw [SkipSpace] at h
    by_cases h1 : r = '\r' ∧ rest.head? = some '\n'
    · rw [if_pos h1] at h
      obtain ⟨sp, hsp, hall, hhead⟩ := ih h
      refine ⟨r :: sp, by rw [hsp, List.cons_append], ?_, hhead⟩
      intro c hc
      rcases List.mem_cons.1 hc with hc | hc
      · rw [hc, h1.1]
        decide
      · exact hall c hc
    · rw [if_neg h1] at h
      by_cases h2 : r = '\n'
      · rw [if_pos h2] at h
        simp at h
      · rw [if_neg h2] at h
        by_cases h3 : isSpace r = true
        · have hn : ¬ ((!isSpace r) = true) := by simp [h3]
          rw [if_neg hn] at h
          obtain ⟨sp, hsp, hall, hhead⟩ := ih h
          refine ⟨r :: sp, by rw [hsp, List.cons_append], ?_, hhead⟩
          intro c hc
          rcases List.mem_cons.1 hc with hc | hc
          · rw [hc]
            simp [isBlank, h3, h2]
          · exact hall c hc
        · have hn : (!isSpace r) = true := by simpa using h3
          rw [if_pos hn] at h
          simp only [Except.ok.injEq] at h
          subst h
          refine ⟨[], rfl, by simp, ?_⟩
          intro c hc
          simp only [List.head?_cons, Option.some.injEq] at hc
          subst hc
          simp only [Bool.not_eq_true] at h3
          simp [isBlank, h3]

theorem acceptAll_spec (ok l : List Char) :
    (acceptAll ok l).1 ++ (acceptAll ok l).2 = l ∧ ∀ c ∈ (acceptAll ok l).1, c ∈ ok := by
  induction l with
  | nil => simp [acceptAll]
  | cons r rest ih =>
    by_cases hr : r ∈ ok
    · simp only [acceptAll, hr, if_true, List.cons_append, ih.1, List.mem_cons, true_and]
      intro c hc
      rcases hc with hc | hc
      · rw [hc]
        exact hr
      · exact ih.2 c hc
    · simp [acceptAll, hr]

theorem dropWhile_append_of_all (p : Char → Bool) (sp l : List Char)
    (h : ∀ c ∈ sp, p c = true) : (sp ++ l).dropWhile p = l.dropWhile p := by
  induction sp with
  | nil => rfl
  | cons c sp ih =>
    rw [List.cons_append, List.dropWhile_cons, if_pos (h c (List.mem_cons_self c sp))]
    exact ih (fun x hx => h x (List.mem_cons_of_mem c hx))

theorem scanNumber_ok (s tok unread : List Char)
    (h : scanNumber decimalDigits s = .ok (tok, unread)) :
    s = tok ++ unread ∧ (∀ c ∈ tok, c ∈ decimalDigits) ∧
      ∃ d ds, tok = d :: ds ∧ d ∈ decimalDigits := by
  cases s with
  | nil => simp [scanNumber] at h
  | cons r rest =>
    by_cases hr : r ∈ decimalDigits
    · simp only [scanNumber, hr, if_true, Except.ok.injEq, Prod.mk.injEq] at h
      obtain ⟨h1, h2⟩ := h
      have hspec := acceptAll_spec decimalDigits rest
      subst h1
      subst h2
      refine ⟨by rw [List.cons_append, hspec.1], ?_, _, _, rfl, hr⟩
      intro c hc
      rcases List.mem_cons.1 hc with hc | hc
      · rw [hc]
        exact hr
      · exact hspec.2 c hc
    · simp [scanNumber, hr] at h

theorem scanInt_ok (s : List Char) (a : Int) (unread : List Char)
    (h : scanInt s = .ok (a, unread)) :
    ∃ pre, s = pre ++ unread ∧ '.' ∉ pre ∧ ∀ y, beginsWithInteger (pre ++ y) = true := by
  unfold scanInt at h
  split at h
  · exact absurd h (by simp)
  · exact absurd h (by simp)
  · rename_i r rest hskip
    obtain ⟨sp, hsp, hblank, hhead⟩ := SkipSpace_ok s (r :: rest) hskip
    have hr : isBlank r = false := hhead r rfl
    have hspdot : '.' ∉ sp := fun hm => by
      have := hblank _ hm
      revert this
      decide
    split at h
    · exact absurd h (by simp)
    · rename_i tok unread1 hnum
      split at h
      · exact absurd h (by simp)
      · simp only [Except.ok.injEq, Prod.mk.injEq] at h
        obtain ⟨-, hun⟩ := h
        subst hun
        obtain ⟨htok, hdig, d, ds, hd, hdmem⟩ := scanNumber_ok _ _ _ hnum
        have htokdot : '.' ∉ tok := fun hm => (digit_facts (hdig _ hm)).2.2.2.2.2.2.2.1 rfl
        by_cases hsign : r ∈ sign
        · have hacc : accept sign (r :: rest) = (some r, rest) := by simp [accept, hsign]
          rw [hacc] at htok
          simp only at htok
          have hrdot : r ≠ '.' := by
            intro hc
            rw [hc] at hsign
            revert hsign
            decide
          refine ⟨sp ++ r :: tok, by rw [hsp, htok, List.append_assoc, List.cons_append], ?_, ?_⟩
          · simp only [List.mem_append, List.mem_cons, not_or]
            exact ⟨hspdot, fun hc => hrdot hc.symm, htokdot⟩
          · intro y
            rw [beginsWithInteger, List.append_assoc, dropWhile_append_of_all _ _ _ hblank,
              List.cons_append, List.dropWhile_cons, hr, hd]
            simp [hsign, hdmem]
        · have hacc : accept sign (r :: rest) = (none, r :: rest) := by simp [accept, hsign]
          rw [hacc] at htok
          simp only at htok
          rw [hd] at htok
          simp only [List.cons_append, List.cons.injEq] at htok
          refine ⟨sp ++ tok, by rw [hsp, hd, List.append_assoc, List.cons_append, htok.1, htok.2],
            ?_, ?_⟩
          · simp only [List.mem_append, not_or]
            exact ⟨hspdot, htokdot⟩
          · intro y
            rw [beginsWithInteger, List.append_assoc, dropWhile_append_of_all _ _ _ hblank, hd,
              List.cons_append, List.dropWhile_cons, ← htok.1, hr]
            rw [htok.1]
            have hds : d ∉ sign := (digit_facts hdmem).2.2.2.2.1
            simp [hds, hdmem]

theorem scanVerbD_ok (s : List Char) (a : Int) (unread : List Char)
    (h : scanVerbD s = .ok (a, unread)) :
    ∃ pre, s = pre ++ unread ∧ '.' ∉ pre ∧ ∀ y, beginsWithInteger (pre ++ y) = true := by
  unfold scanVerbD at h
  split at h
  · exact absurd h (by simp)
  · rename_i s1 hskip
    obtain ⟨sp, hsp, hblank, -⟩ := SkipSpace_ok s s1 hskip
    obtain ⟨pre, hpre, hdot, hint⟩ := scanInt_ok s1 a unread h
    have hspdot : '.' ∉ sp := fun hm => by
      have := hblank _ hm
      revert this
      decide
    refine ⟨sp ++ pre, by rw [hsp, hpre, List.append_assoc], ?_, ?_⟩
    · simp only [List.mem_append, not_or]
      exact ⟨hspdot, hdot⟩
    · intro y
      have := hint y
      rw [beginsWithInteger] at this ⊢
      rw [List.append_assoc, dropWhile_append_of_all _ _ _ hblank]
      exact this

theorem advance_ok (c : Char) (s s1 : List Char) (h : advance c s = .ok s1) : s = c :: s1 := by
  cases s with
  | nil => simp [advance] at h
  | cons r rest =>
    by_cases hc : c = r
    · simp only [advance, hc, if_true, Except.ok.injEq] at h
      rw [hc, h]
    · simp [advance, hc] at h

theorem splitDots_ne_nil (l : List Char) : splitDots l ≠ [] := by
  cases l with
  | nil => simp [splitDots]
  | cons c cs =>
    rw [splitDots]
    split_ifs
    · simp
    · split <;> simp

theorem splitDots_append (pre y : List Char) (h : '.' ∉ pre) :
    ∃ p ps, splitDots (pre ++ y) = (pre ++ p) :: ps := by
  induction pre with
  | nil =>
    cases hy : splitDots y with
    | nil => exact absurd hy (splitDots_ne_nil y)
    | cons p ps => exact ⟨p, ps, by simpa using hy⟩
  | cons c pre ih =>
    obtain ⟨p, ps, hp⟩ := ih (fun hm => h (List.mem_cons_of_mem c hm))
    have hc : c ≠ '.' := fun hc => h (by rw [hc]; exact List.mem_cons_self _ _)
    refine ⟨p, ps, ?_⟩
    rw [List.cons_append, splitDots, if_neg hc, hp]
    rfl

theorem splitDots_append_dot (pre y : List Char) (h : '.' ∉ pre) :
    splitDots (pre ++ '.' :: y) = pre :: splitDots y := by
  induction pre with
  | nil => simp [splitDots]
  | cons c pre ih =>
    have hc : c ≠ '.' := fun hc => h (by rw [hc]; exact List.mem_cons_self _ _)
    rw [List.cons_append, splitDots, if_neg hc, ih (fun hm => h (List.mem_cons_of_mem c hm))]

theorem Scan_ok_shape (s : List Char) (t : vtag) (unread : List Char)
    (h : vtag.Scan s = .ok (t, unread)) :
    ∃ p1 p2 p3, s = 'v' :: (p1 ++ '.' :: (p2 ++ '.' :: (p3 ++ unread))) ∧
      '.' ∉ p1 ∧ '.' ∉ p2 ∧ '.' ∉ p3 ∧ (∀ y, beginsWithInteger (p1 ++ y) = true) ∧
      (∀ y, beginsWithInteger (p2 ++ y) = true) ∧ ∀ y, beginsWithInteger (p3 ++ y) = true := by
  unfold vtag.Scan at h
  split at h
  · exact absurd h (by simp)
  · rename_i s1 h1
    split at h
    · exact absurd h (by simp)
    · rename_i a s2 h2
      split at h
      · exact absurd h (by simp)
      · rename_i s3 h3
        split at h
        · exact absurd h (by simp)
        · rename_i b s4 h4
          split at h
          · exact absurd h (by simp)
          · rename_i s5 h5
            split at h
            · exact absurd h (by simp)
            · rename_i c s6 h6
              simp only [Except.ok.injEq, Prod.mk.injEq] at h
              obtain ⟨-, hun⟩ := h
              subst hun
              obtain ⟨p1, e1, d1, i1⟩ := scanVerbD_ok _ _ _ h2
              obtain ⟨p2, e2, d2, i2⟩ := scanVerbD_ok _ _ _ h4
              obtain ⟨p3, e3, d3, i3⟩ := scanVerbD_ok _ _ _ h6
              refine ⟨p1, p2, p3, ?_, d1, d2, d3, i1, i2, i3⟩
              rw [advance_ok _ _ _ h1, e1, advance_ok _ _ _ h3, e2, advance_ok _ _ _ h5, e3]

/-! ## What a successful scan has read, with the values -/

theorem parseUintLoop_cases (ds : List Char) (n : Nat) (hd : ∀ c ∈ ds, c ∈ decimalDigits) :
    parseUintLoop ds n = (decimalValue ds n, none) ∨
      parseUintLoop ds n = (2 ^ 64 - 1, some .ErrRange) := by
  induction ds generalizing n with
  | nil => exact Or.inl (by simp [parseUintLoop, decimalValue])
  | cons c cs ih =>
    have hc := digit_facts (hd c (List.mem_cons_self c cs))
    rw [parseUintLoop, if_pos hc.1]
    by_cases h1 : (2 ^ 64 - 1) / 10 + 1 ≤ n
    · rw [if_pos h1]
      exact Or.inr rfl
    · rw [if_neg h1]
      by_cases h2 : 2 ^ 64 - 1 < n * 10 + (c.toNat - 48)
      · rw [if_pos h2]
        exact Or.inr rfl
      · rw [if_neg h2]
        have := ih (n * 10 + (c.toNat - 48)) (fun x hx => hd x (List.mem_cons_of_mem c hx))
        simpa [decimalValue] using this

theorem ParseUint_cases (tok : List Char) (hne : tok ≠ [])
    (hd : ∀ c ∈ tok, c ∈ decimalDigits) :
    ParseUint tok = (decimalValue tok 0, none) ∨ ParseUint tok = (2 ^ 64 - 1, some .ErrRange) := by
  rw [ParseUint, if_neg hne]
  exact parseUintLoop_cases tok 0 hd

/-- The value of a token that `ParseInt` accepts: the digits with the sign, within `int`. -/
theorem ParseInt_ok (sgn : Option Char) (tok : List Char) (i : Int)
    (hs : sgn = none ∨ sgn = some '+' ∨ sgn = some '-') (hne : tok ≠ [])
    (hd : ∀ c ∈ tok, c ∈ decimalDigits) (h : ParseInt (sgn.toList ++ tok) = .ok i) :
    i = (if sgn = some '-' then -((decimalValue tok 0 : Nat) : Int)
      else ((decimalValue tok 0 : Nat) : Int)) ∧ isInt i := by
  have hcases := ParseUint_cases tok hne hd
  rcases hs with hs | hs | hs
  · subst hs
    cases tok with
    | nil => exact absurd rfl hne
    | cons d ds =>
      have hdf := digit_facts (hd d (List.mem_cons_self d ds))
      simp only [Option.toList, List.nil_append, ParseInt, hdf.2.2.2.2.2.1, hdf.2.2.2.2.2.2.1,
        or_self, if_false, decide_False] at h
      rcases hcases with hc | hc
      · rw [hc] at h
        simp only [Bool.not_false, true_and, Bool.false_eq_true, false_and, if_false] at h
        split_ifs at h with h1
        simp only [Except.ok.injEq] at h
        subst h
        refine ⟨by simp, ?_⟩
        simp only [isInt, minInt, maxInt]
        omega
      · rw [hc] at h
        simp at h
  · subst hs
    simp only [Option.toList, List.singleton_append, ParseInt] at h
    rcases hcases with hc | hc
    · have hplus : decide (('+' : Char) = '-') = false := by decide
      simp only [hplus, true_or, if_true, hc, Bool.not_false, true_and, Bool.false_eq_true,
        false_and, if_false] at h
      split_ifs at h with h1
      simp only [Except.ok.injEq] at h
      subst h
      refine ⟨by simp, ?_⟩
      simp only [isInt, minInt, maxInt]
      omega
    · have hplus : decide (('+' : Char) = '-') = false := by decide
      simp [hplus, hc] at h
  · subst hs
    simp only [Option.toList, List.singleton_append, ParseInt] at h
    rcases hcases with hc | hc
    · simp only [decide_True, or_true, if_true, hc, Bool.not_true, Bool.false_eq_true, false_and,
        if_false, true_and] at h
      split_ifs at h with h1
      simp only [Except.ok.injEq] at h
      subst h
      refine ⟨by simp, ?_⟩
      simp only [isInt, minInt, maxInt]
      omega
    · simp [hc] at h

theorem acceptAll_head (ok l : List Char) (c : Char)
    (h : (acceptAll ok l).2.head? = some c) : c ∉ ok := by
  induction l with
  | nil => simp [acceptAll] at h
  | cons r rest ih =>
    by_cases hr : r ∈ ok
    · simp only [acceptAll, hr, if_true] at h
      exact ih h
    · simp only [acceptAll, hr, if_false, List.head?_cons, Option.some.injEq] at h
      rw [← h]
      exact hr

theorem scanNumber_unread (s tok unread : List Char)
    (h : scanNumber decimalDigits s = .ok (tok, unread)) : noDigitAhead unread := by
  cases s with
  | nil => simp [scanNumber] at h
  | cons r rest =>
    by_cases hr : r ∈ decimalDigits
    · simp only [scanNumber, hr, if_true, Except.ok.injEq, Prod.mk.injEq] at h
      rw [← h.2]
      exact fun c hc => acceptAll_head _ _ c hc
    · simp [scanNumber, hr] at h

/-- The parts of the input that `scanInt` has read when it succeeds. -/
theorem scanInt_parts (s : List Char) (a : Int) (unread : List Char)
    (h : scanInt s = .ok (a, unread)) :
    ∃ sp sgn tok, s = sp ++ (sgn.toList ++ (tok ++ unread)) ∧ (∀ c ∈ sp, isBlank c = true) ∧
      (sgn = none ∨ sgn = some '+' ∨ sgn = some '-') ∧ tok ≠ [] ∧
      (∀ c ∈ tok, c ∈ decimalDigits) ∧ ParseInt (sgn.toList ++ tok) = .ok a ∧
      noDigitAhead unread := by
  unfold scanInt at h
  split at h
  · exact absurd h (by simp)
  · exact absurd h (by simp)
  · rename_i r rest hskip
    obtain ⟨sp, hsp, hblank, -⟩ := SkipSpace_ok s (r :: rest) hskip
    split at h
    · exact absurd h (by simp)
    · rename_i tok unread1 hnum
      split at h
      · exact absurd h (by simp)
      · rename_i i hparse
        simp only [Except.ok.injEq, Prod.mk.injEq] at h
        obtain ⟨hi, hun⟩ := h
        subst hun
        subst hi
        obtain ⟨htok, hdig, d, ds, hd, -⟩ := scanNumber_ok _ _ _ hnum
        have hne : tok ≠ [] := by rw [hd]; simp
        have hahead : noDigitAhead unread1 := scanNumber_unread _ _ _ hnum
        by_cases hsign : r ∈ sign
        · have hacc : accept sign (r :: rest) = (some r, rest) := by simp [accept, hsign]
          rw [hacc] at htok hparse
          simp only at htok hparse
          refine ⟨sp, some r, tok, ?_, hblank, ?_, hne, hdig, hparse, hahead⟩
          · rw [hsp, htok]
            rfl
          · simp only [sign, List.mem_cons, List.mem_singleton, List.not_mem_nil, or_false] at hsign
            rcases hsign with hsign | hsign
            · exact Or.inr (Or.inl (by rw [hsign]))
            · exact Or.inr (Or.inr (by rw [hsign]))
        · have hacc : accept sign (r :: rest) = (none, r :: rest) := by simp [accept, hsign]
          rw [hacc] at htok hparse
          simp only at htok hparse
          refine ⟨sp, none, tok, ?_, hblank, Or.inl rfl, hne, hdig, hparse, hahead⟩
          rw [hsp, htok]
          rfl

theorem isDigits_of_digits (tok : List Char) (hne : tok ≠ [])
    (hd : ∀ c ∈ tok, c ∈ decimalDigits) : isDigits tok = true := by
  cases tok with
  | nil => exact absurd rfl hne
  | cons d ds =>
    simp only [isDigits, List.isEmpty_cons, Bool.not_false, Bool.true_and, List.all_eq_true,
      decide_eq_true_eq]
    exact hd

theorem readsAs_parts (sp tok : List Char) (sgn : Option Char) (a : Int)
    (hblank : ∀ c ∈ sp, isBlank c = true)
    (hs : sgn = none ∨ sgn = some '+' ∨ sgn = some '-') (hne : tok ≠ [])
    (hd : ∀ c ∈ tok, c ∈ decimalDigits) (h : ParseInt (sgn.toList ++ tok) = .ok a) :
    readsAs (sp ++ (sgn.toList ++ tok)) a := by
  obtain ⟨hval, hint⟩ := ParseInt_ok sgn tok a hs hne hd h
  have hdig := isDigits_of_digits tok hne hd
  have hspdot : '.' ∉ sp := fun hm => by
    have := hblank _ hm
    revert this
    decide
  have hspminus : '-' ∉ sp := fun hm => by
    have := hblank _ hm
    revert this
    decide
  have htokdot : '.' ∉ tok := fun hm => (digit_facts (hd _ hm)).2.2.2.2.2.2.2.1 rfl
  have htokminus : '-' ∉ tok := fun hm => (digit_facts (hd _ hm)).2.2.2.2.2.2.1 rfl
  rcases hs with hs | hs | hs
  · subst hs
    cases tok with
    | nil => exact absurd rfl hne
    | cons d ds =>
      have hdf := digit_facts (hd d (List.mem_cons_self d ds))
      have hdb : isBlank d = false := by simp [isBlank, hdf.2.1]
      have hdrop : (sp ++ (Option.toList none ++ d :: ds)).dropWhile isBlank = d :: ds := by
        rw [dropWhile_append_of_all _ _ _ hblank]
        simp [List.dropWhile_cons, hdb]
      refine ⟨?_, ?_, hint, ?_, ?_⟩
      · rw [isIntegerText, hdrop]
        simp only [hdf.2.2.2.2.1, if_false]
        exact hdig
      · rw [integerValue, hdrop, hval]
        simp [hdf.2.2.2.2.2.1, hdf.2.2.2.2.2.2.1]
      · simp only [Option.toList, List.nil_append, List.mem_append, not_or]
        exact ⟨hspdot, htokdot⟩
      · intro _
        rw [hval]
        simp
  · subst hs
    have hdrop : (sp ++ (Option.toList (some '+') ++ tok)).dropWhile isBlank = '+' :: tok := by
      rw [dropWhile_append_of_all _ _ _ hblank]
      have : isBlank '+' = false := by decide
      simp [List.dropWhile_cons, this]
    refine ⟨?_, ?_, hint, ?_, ?_⟩
    · rw [isIntegerText, hdrop]
      have : '+' ∈ sign := by decide
      simp only [this, if_true]
      exact hdig
    · rw [integerValue, hdrop, hval]
      have h1 : ¬ (('+' : Char) = '-') := by decide
      simp [h1]
    · simp only [Option.toList, List.singleton_append, List.mem_append, List.mem_cons, not_or]
      exact ⟨hspdot, by decide, htokdot⟩
    · intro _
      rw [hval]
      simp
  · subst hs
    have hdrop : (sp ++ (Option.toList (some '-') ++ tok)).dropWhile isBlank = '-' :: tok := by
      rw [dropWhile_append_of_all _ _ _ hblank]
      have : isBlank '-' = false := by decide
      simp [List.dropWhile_cons, this]
    refine ⟨?_, ?_, hint, ?_, ?_⟩
    · rw [isIntegerText, hdrop]
      have : '-' ∈ sign := by decide
      simp only [this, if_true]
      exact hdig
    · rw [integerValue, hdrop, hval]
      simp
    · simp only [Option.toList, List.singleton_append, List.mem_append, List.mem_cons, not_or]
      exact ⟨hspdot, by decide, htokdot⟩
    · intro hm
      exact absurd (by simp) hm

theorem scanVerbD_parts (s : List Char) (a : Int) (unread : List Char)
    (h : scanVerbD s = .ok (a, unread)) :
    ∃ p, s = p ++ unread ∧ readsAs p a ∧ noDigitAhead unread := by
  unfold scanVerbD at h
  split at h
  · exact absurd h (by simp)
  · rename_i s1 hskip
    obtain ⟨sp0, hsp0, hblank0, -⟩ := SkipSpace_ok s s1 hskip
    obtain ⟨sp, sgn, tok, hs1, hblank, hs, hne, hd, hparse, hahead⟩ := scanInt_parts s1 a unread h
    refine ⟨(sp0 ++ sp) ++ (sgn.toList ++ tok), ?_, ?_, hahead⟩
    · rw [hsp0, hs1]
      simp only [List.append_assoc]
    · refine readsAs_parts (sp0 ++ sp) tok sgn a ?_ hs hne hd hparse
      intro c hc
      rcases List.mem_append.1 hc with hc | hc
      · exact hblank0 c hc
      · exact hblank c hc

/-- The parts of the input `Scan` has read when it succeeds, and the tag they give. -/
theorem Scan_ok_parts (s : List Char) (t : vtag) (unread : List Char)
    (h : vtag.Scan s = .ok (t, unread)) :
    ∃ p1 p2 p3, s = 'v' :: (p1 ++ '.' :: (p2 ++ '.' :: (p3 ++ unread))) ∧
      readsAs p1 t.major ∧ readsAs p2 t.minor ∧ readsAs p3 t.patch ∧ noDigitAhead unread := by
  unfold vtag.Scan at h
  split at h
  · exact absurd h (by simp)
  · rename_i s1 h1
    split at h
    · exact absurd h (by simp)
    · rename_i a s2 h2
      split at h
      · exact absurd h (by simp)
      · rename_i s3 h3
        split at h
        · exact absurd h (by simp)
        · rename_i b s4 h4
          split at h
          · exact absurd h (by simp)
          · rename_i s5 h5
            split at h
            · exact absurd h (by simp)
            · rename_i c s6 h6
              simp only [Except.ok.injEq, Prod.mk.injEq] at h
              obtain ⟨ht, hun⟩ := h
              subst hun
              subst ht
              obtain ⟨p1, e1, r1, -⟩ := scanVerbD_parts _ _ _ h2
              obtain ⟨p2, e2, r2, -⟩ := scanVerbD_parts _ _ _ h4
              obtain ⟨p3, e3, r3, hahead⟩ := scanVerbD_parts _ _ _ h6
              refine ⟨p1, p2, p3, ?_, r1, r2, r3, hahead⟩
              rw [advance_ok _ _ _ h1, e1, advance_ok _ _ _ h3, e2, advance_ok _ _ _ h5, e3]

/-- The parts of a text that parses, and the tag they give. -/
theorem Fscan_ok_parts (text : List Char) (t : vtag) (h : Fscan text = .ok t) :
    ∃ p1 p2 p3 rest, text = 'v' :: (p1 ++ '.' :: (p2 ++ '.' :: (p3 ++ rest))) ∧
      readsAs p1 t.major ∧ readsAs p2 t.minor ∧ readsAs p3 t.patch := by
  unfold Fscan at h
  split at h
  · rename_i t1 unread hscan
    simp only [Except.ok.injEq] at h
    subst h
    obtain ⟨p1, p2, p3, hs, r1, r2, r3, -⟩ := Scan_ok_parts _ _ _ hscan
    refine ⟨p1, p2, p3, unread ++ text.drop hugeWid, ?_, r1, r2, r3⟩
    conv_lhs => rw [← List.take_append_drop hugeWid text, hs]
    simp
  · exact absurd h (by simp)
  · exact absurd h (by simp)

/-! ## What follows a tag, and blanks before the numbers -/

theorem noDigitAhead_take (n : Nat) (rest : List Char) (h : noDigitAhead rest) :
    noDigitAhead (rest.take n) := by
  intro c hc
  cases n with
  | zero => simp at hc
  | succ n =>
    cases rest with
    | nil => simp at hc
    | cons r rs =>
      simp only [List.take_succ_cons, List.head?_cons, Option.some.injEq] at hc
      exact h c (by simp [hc])

/-- Whatever follows the text of a tag without continuing its last number is not examined. -/
theorem Fscan_String_append (t : vtag) (rest : List Char) (ht : t.wellTyped)
    (hr : noDigitAhead rest) : Fscan (t.String ++ rest) = .ok t := by
  have hlen := String_length t ht
  have htake : List.take hugeWid (t.String ++ rest)
      = t.String ++ rest.take (hugeWid - t.String.length) := by
    rw [List.take_append_eq_append_take, List.take_of_length_le (by simp only [hugeWid]; omega)]
  have h := Scan_String t (rest.take (hugeWid - t.String.length)) ht (noDigitAhead_take _ _ hr)
  simp [Fscan, htake, h]

theorem SkipSpace_blank_cons (r : Char) (l : List Char) (h : isBlank r = true) :
    SkipSpace false (r :: l) = SkipSpace false l := by
  simp only [isBlank, Bool.and_eq_true, bne_iff_ne, ne_eq] at h
  rw [SkipSpace]
  by_cases h1 : r = '\r' ∧ l.head? = some '\n'
  · rw [if_pos h1]
  · rw [if_neg h1, if_neg h.2]
    simp [h.1]

theorem SkipSpace_blanks (sp l : List Char) (h : ∀ c ∈ sp, isBlank c = true) :
    SkipSpace false (sp ++ l) = SkipSpace false l := by
  induction sp with
  | nil => rfl
  | cons r sp ih =>
    rw [List.cons_append, SkipSpace_blank_cons _ _ (h r (List.mem_cons_self r sp))]
    exact ih (fun c hc => h c (List.mem_cons_of_mem r hc))

theorem SkipSpace_fmtInteger (x : Int) (rest : List Char) :
    SkipSpace false (fmtInteger x ++ rest) = .ok (fmtInteger x ++ rest) := by
  obtain ⟨c, cs, hcs, hc⟩ := fmtInteger_head x
  rw [hcs, List.cons_append]
  rcases hc with hc | hc
  · rw [hc]
    exact SkipSpace_minus _ _
  · exact SkipSpace_digit _ _ _ hc

theorem scanVerbD_blanks_fmtInteger (sp : List Char) (x : Int) (rest : List Char)
    (hsp : ∀ c ∈ sp, isBlank c = true) (hx : isInt x) (hr : noDigitAhead rest) :
    scanVerbD (sp ++ (fmtInteger x ++ rest)) = .ok (x, rest) := by
  simp [scanVerbD, SkipSpace_blanks _ _ hsp, SkipSpace_fmtInteger,
    scanInt_fmtInteger x rest hx hr]

/-- Blanks between the `v` or a dot and the number that follows are skipped. -/
theorem Scan_blanks (t : vtag) (s1 s2 s3 rest : List Char) (ht : t.wellTyped)
    (h1 : ∀ c ∈ s1, isBlank c = true) (h2 : ∀ c ∈ s2, isBlank c = true)
    (h3 : ∀ c ∈ s3, isBlank c = true) (hr : noDigitAhead rest) :
    vtag.Scan ('v' :: (s1 ++ (fmtInteger t.major ++ '.' :: (s2 ++ (fmtInteger t.minor ++
      '.' :: (s3 ++ (fmtInteger t.patch ++ rest)))))))
      = .ok (t, rest) := by
  obtain ⟨i1, i2, i3⟩ := ht
  have e1 := scanVerbD_blanks_fmtInteger s1 t.major
    ('.' :: (s2 ++ (fmtInteger t.minor ++ '.' :: (s3 ++ (fmtInteger t.patch ++ rest))))) h1 i1
    (noDigitAhead_dot _)
  have e2 := scanVerbD_blanks_fmtInteger s2 t.minor
    ('.' :: (s3 ++ (fmtInteger t.patch ++ rest))) h2 i2 (noDigitAhead_dot _)
  have e3 := scanVerbD_blanks_fmtInteger s3 t.patch rest h3 i3 hr
  simp [vtag.Scan, advance, e1, e2, e3]

/-- Claim C11, counterexample: the text "v1.2.3-rc1" is not an exact match, being a
well-formed tag with extra characters after it, and parsing it succeeds with {1, 2, 3}. -/
theorem Fscan_accepts_text_after_the_tag :
    isExactTag "v1.2.3".toList = true ∧ isExactTag "v1.2.3-rc1".toList = false ∧
      Fscan "v1.2.3-rc1".toList = .ok { major := 1, minor := 2, patch := 3 } := by
  decide

/-- Claim C11, as amended: parsing succeeds only on a text that begins with a match: every
text on which it succeeds is `v`, the text of an integer, `.`, the text of an integer, `.`,
the text of an integer, each of them blanks (if any), an optional sign and decimal digits
with the value of the field, followed by further characters of any kind; what follows the
text of a tag without continuing its last number is not examined, and in particular
parsing "v1.2.3-rc1" succeeds with {1, 2, 3}. -/
theorem Fscan_succeeds_only_on_a_leading_match :
    (∀ (text : List Char) (t : vtag), Fscan text = .ok t →
      ∃ p1 p2 p3 rest, text = 'v' :: (p1 ++ '.' :: (p2 ++ '.' :: (p3 ++ rest))) ∧
        isIntegerText p1 = true ∧ isIntegerText p2 = true ∧ isIntegerText p3 = true ∧
        t = { major := integerValue p1, minor := integerValue p2, patch := integerValue p3 }) ∧
    (∀ (t : vtag) (rest : List Char), t.wellTyped → noDigitAhead rest →
      Fscan (t.String ++ rest) = .ok t) ∧
    Fscan "v1.2.3-rc1".toList = .ok { major := 1, minor := 2, patch := 3 } := by
  refine ⟨?_, fun t rest ht hr => Fscan_String_append t rest ht hr, by decide⟩
  intro text t h
  obtain ⟨p1, p2, p3, rest, htext, r1, r2, r3⟩ := Fscan_ok_parts text t h
  refine ⟨p1, p2, p3, rest, htext, r1.1, r2.1, r3.1, ?_⟩
  cases t
  simp only [vtag.mk.injEq]
  exact ⟨r1.2.1.symm, r2.2.1.symm, r3.2.1.symm⟩

/-- Witness of the amended claim C11 at the text "v1.2.3-rc1" and at the tag v1.2.3 followed
by "-rc1". -/
theorem Fscan_succeeds_only_on_a_leading_match_witness :
    Fscan "v1.2.3-rc1".toList = .ok { major := 1, minor := 2, patch := 3 } ∧
    (∃ p1 p2 p3 rest, "v1.2.3-rc1".toList = 'v' :: (p1 ++ '.' :: (p2 ++ '.' :: (p3 ++ rest))) ∧
      isIntegerText p1 = true ∧ isIntegerText p2 = true ∧ isIntegerText p3 = true ∧
      ({ major := 1, minor := 2, patch := 3 } : vtag)
        = { major := integerValue p1, minor := integerValue p2, patch := integerValue p3 }) ∧
    vtag.wellTyped { major := 1, minor := 2, patch := 3 } ∧ noDigitAhead "-rc1".toList ∧
    Fscan (vtag.String { major := 1, minor := 2, patch := 3 } ++ "-rc1".toList)
      = .ok { major := 1, minor := 2, patch := 3 } :=
  ⟨by decide,
    Fscan_succeeds_only_on_a_leading_match.1 "v1.2.3-rc1".toList
      { major := 1, minor := 2, patch := 3 } (by decide),
    by decide, fun c hc => by simp at hc; subst hc; decide,
    Fscan_succeeds_only_on_a_leading_match.2.1 { major := 1, minor := 2, patch := 3 }
      "-rc1".toList (by decide) (fun c hc => by simp at hc; subst hc; decide)⟩

/-- Claim C12, counterexample: the texts "v 1.2.3", "v1.\t2.3" and "v1.2.3 " contain a space
or a tab (after the `v`, after a dot, at the end), and parsing each of them succeeds with
{1, 2, 3}. -/
theorem Fscan_tolerates_blanks :
    (hasSpaceOrTab "v 1.2.3".toList = true ∧
      Fscan "v 1.2.3".toList = .ok { major := 1, minor := 2, patch := 3 }) ∧
    (hasSpaceOrTab "v1.\t2.3".toList = true ∧
      Fscan "v1.\t2.3".toList = .ok { major := 1, minor := 2, patch := 3 }) ∧
    (hasSpaceOrTab "v1.2.3 ".toList = true ∧
      Fscan "v1.2.3 ".toList = .ok { major := 1, minor := 2, patch := 3 }) := by
  decide

/-! ## Listing the tags of a repository -/

theorem forEachTag_all_parse (refs : List reference) (vtags : List vtag)
    (h : ∀ tag ∈ refs, ∃ t, Fscan tag.name = .ok t) :
    forEachTag refs vtags = .ok (vtags ++ parsedTags refs) := by
  induction refs generalizing vtags with
  | nil => simp [forEachTag, parsedTags]
  | cons tag rest ih =>
    obtain ⟨t, ht⟩ := h tag (List.mem_cons_self tag rest)
    have hrest := ih (vtags ++ [t]) (fun x hx => h x (List.mem_cons_of_mem tag hx))
    simp only [parsedTags] at hrest
    simp [forEachTag, ht, hrest, parsedTags, Except.toOption]

theorem forEachTag_some_fails (refs : List reference) (vtags : List vtag)
    (h : ∃ tag ∈ refs, ∃ err, Fscan tag.name = .error err) :
    ∃ tag ∈ refs, ∃ err, Fscan tag.name = .error err ∧ forEachTag refs vtags = .error err := by
  induction refs generalizing vtags with
  | nil =>
    obtain ⟨tag, hmem, -⟩ := h
    simp at hmem
  | cons tag rest ih =>
    cases hscan : Fscan tag.name with
    | error err =>
      exact ⟨tag, List.mem_cons_self tag rest, err, hscan, by simp [forEachTag, hscan]⟩
    | ok t =>
      have hrest : ∃ x ∈ rest, ∃ err, Fscan x.name = .error err := by
        obtain ⟨x, hx, err, herr⟩ := h
        rcases List.mem_cons.1 hx with hx | hx
        · rw [hx, hscan] at herr
          exact absurd herr (by simp)
        · exact ⟨x, hx, err, herr⟩
      obtain ⟨x, hx, err, herr, hfor⟩ := ih (vtags ++ [t]) hrest
      exact ⟨x, List.mem_cons_of_mem tag hx, err, herr, by simp [forEachTag, hscan, hfor]⟩

/-- Claim C13, counterexample: in a repository with the tag references "v1.2.3" and
"nightly" the second name does not parse, and it is not skipped: `tags()` fails with the
parse error wrapped, and so do `latest()` and the workflow of major, which creates
nothing. -/
theorem tags_fails_on_nightly :
    parsedTags [{ name := "v1.2.3".toList, hash := 1 }, { name := "nightly".toList, hash := 2 }]
      = [{ major := 1, minor := 2, patch := 3 }] ∧
    (gitTagger.tags { repo := { tags := [{ name := "v1.2.3".toList, hash := 1 },
        { name := "nightly".toList, hash := 2 }], head := some 7 } }).1
      = .error (.wrapped "failed to iterate tags".toList .noMatch) ∧
    (gitTagger.latest { repo := { tags := [{ name := "v1.2.3".toList, hash := 1 },
        { name := "nightly".toList, hash := 2 }], head := some 7 } }).1
      = .error (.wrapped "failed to iterate tags".toList .noMatch) ∧
    command.action .major (recording gitTagger.asTagger)
        { store := { repo := { tags := [{ name := "v1.2.3".toList, hash := 1 },
            { name := "nightly".toList, hash := 2 }], head := some 7 } }, created := [] }
      = (.error (.wrapped "failed to get latest tag".toList
            (.wrapped "failed to iterate tags".toList .noMatch)),
          { store := { repo := { tags := [{ name := "v1.2.3".toList, hash := 1 },
              { name := "nightly".toList, hash := 2 }], head := some 7 } }, created := [] }) := by
  refine ⟨by decide, by decide, by decide, ?_⟩
  rfl

/-- Claim C13, as amended: listing fails on an unparseable reference: for every list of
reference names in the backing store, `tags()` succeeds when every name parses, and then
returns the tags of the names, sorted; when some name fails to parse, `tags()` fails with
the parse error of such a name, wrapped, `latest()` fails with the same error, and for
every command the workflow fails, `create` is never called and the store is left as it
was. -/
theorem tags_fails_on_unparseable_reference (g : gitTagger) :
    ((∀ tag ∈ g.repo.tags, ∃ t, Fscan tag.name = .ok t) →
      gitTagger.tags g = (.ok (sortVtags (parsedTags g.repo.tags)), g)) ∧
    ((∃ tag ∈ g.repo.tags, ∃ err, Fscan tag.name = .error err) →
      ∃ tag ∈ g.repo.tags, ∃ err, Fscan tag.name = .error err ∧
        gitTagger.tags g = (.error (.wrapped "failed to iterate tags".toList err), g) ∧
        gitTagger.latest g = (.error (.wrapped "failed to iterate tags".toList err), g) ∧
        ∀ c : command,
          c.action (recording gitTagger.asTagger) { store := g, created := [] }
            = (.error (.wrapped "failed to get latest tag".toList
                  (.wrapped "failed to iterate tags".toList err)),
                { store := g, created := [] })) := by
  constructor
  · intro h
    have hfor := forEachTag_all_parse g.repo.tags [] h
    rw [List.nil_append] at hfor
    simp only [gitTagger.tags, hfor]
  · intro h
    obtain ⟨tag, hmem, err, herr, hfor⟩ := forEachTag_some_fails g.repo.tags [] h
    have htags : gitTagger.tags g
        = (.error (.wrapped "failed to iterate tags".toList err), g) := by
      simp only [gitTagger.tags, hfor]
    have hlatest : gitTagger.latest g
        = (.error (.wrapped "failed to iterate tags".toList err), g) := by
      simp only [gitTagger.latest, htags]
    refine ⟨tag, hmem, err, herr, htags, hlatest, ?_⟩
    intro c
    simp only [action_eq_increment, increment, recording, gitTagger.asTagger, hlatest,
      failure.isPanic, Bool.false_eq_true, if_false]

/-- Witness of the amended claim C13 at the repositories with the references "v1.2.3",
"v0.1.0" and "v1.2.3", "nightly". -/
theorem tags_fails_on_unparseable_reference_witness :
    gitTagger.tags { repo := { tags := [{ name := "v1.2.3".toList, hash := 1 },
        { name := "v0.1.0".toList, hash := 2 }], head := some 7 } }
      = (.ok (sortVtags (parsedTags [{ name := "v1.2.3".toList, hash := 1 },
          { name := "v0.1.0".toList, hash := 2 }])),
        { repo := { tags := [{ name := "v1.2.3".toList, hash := 1 },
          { name := "v0.1.0".toList, hash := 2 }], head := some 7 } }) ∧
    sortVtags (parsedTags [{ name := "v1.2.3".toList, hash := 1 },
        { name := "v0.1.0".toList, hash := 2 }])
      = [{ major := 0, minor := 1, patch := 0 }, { major := 1, minor := 2, patch := 3 }] ∧
    (∃ tag ∈ [({ name := "v1.2.3".toList, hash := 1 } : reference),
        { name := "nightly".toList, hash := 2 }],
      ∃ err, Fscan tag.name = .error err ∧
        gitTagger.tags { repo := { tags := [{ name := "v1.2.3".toList, hash := 1 },
            { name := "nightly".toList, hash := 2 }], head := some 7 } }
          = (.error (.wrapped "failed to iterate tags".toList err),
              { repo := { tags := [{ name := "v1.2.3".toList, hash := 1 },
                { name := "nightly".toList, hash := 2 }], head := some 7 } })) :=
  ⟨(tags_fails_on_unparseable_reference _).1 (fun tag htag => by
      simp only [List.mem_cons, List.mem_singleton, List.not_mem_nil, or_false] at htag
      rcases htag with htag | htag <;> subst htag
      · exact ⟨{ major := 1, minor := 2, patch := 3 }, by decide⟩
      · exact ⟨{ major := 0, minor := 1, patch := 0 }, by decide⟩),
    by decide,
    ((tags_fails_on_unparseable_reference _).2
      ⟨{ name := "nightly".toList, hash := 2 }, by decide, .noMatch, by decide⟩).imp
      fun _ h => ⟨h.1, h.2.imp fun _ h2 => ⟨h2.1, h2.2.1⟩⟩⟩

/-- Claim C14, counterexample: parsing "v-1.2.3" succeeds with the major -1, and parsing
"v1.-2.-3" with the minor -2 and the patch -3. -/
theorem Fscan_reads_negative_fields :
    Fscan "v-1.2.3".toList = .ok { major := -1, minor := 2, patch := 3 } ∧ (-1 : Int) < 0 ∧
    Fscan "v1.-2.-3".toList = .ok { major := 1, minor := -2, patch := -3 } := by
  decide

/-- Claim C14, as amended: fields are values of `int`, negative only under a minus sign: for
every text on which parsing succeeds, major, minor and patch of the resulting tag lie
between -2^63 and 2^63-1, and each of them is >= 0 unless its number is written with a
`-` in the text; parsing "v-1.2.3" succeeds with the major -1. -/
theorem Fscan_fields_negative_only_under_minus (text : List Char) (t : vtag)
    (h : Fscan text = .ok t) :
    t.wellTyped ∧
    (∃ p1 p2 p3 rest, text = 'v' :: (p1 ++ '.' :: (p2 ++ '.' :: (p3 ++ rest))) ∧
      isIntegerText p1 = true ∧ isIntegerText p2 = true ∧ isIntegerText p3 = true ∧
      ('-' ∉ p1 → 0 ≤ t.major) ∧ ('-' ∉ p2 → 0 ≤ t.minor) ∧ ('-' ∉ p3 → 0 ≤ t.patch)) ∧
    ('-' ∉ text → 0 ≤ t.major ∧ 0 ≤ t.minor ∧ 0 ≤ t.patch) ∧
    Fscan "v-1.2.3".toList = .ok { major := -1, minor := 2, patch := 3 } := by
  obtain ⟨p1, p2, p3, rest, htext, r1, r2, r3⟩ := Fscan_ok_parts text t h
  refine ⟨⟨r1.2.2.1, r2.2.2.1, r3.2.2.1⟩,
    ⟨p1, p2, p3, rest, htext, r1.1, r2.1, r3.1, r1.2.2.2.2, r2.2.2.2.2, r3.2.2.2.2⟩, ?_,
    by decide⟩
  intro hminus
  rw [htext] at hminus
  simp only [List.mem_cons, List.mem_append, not_or] at hminus
  exact ⟨r1.2.2.2.2 hminus.2.1, r2.2.2.2.2 hminus.2.2.2.1, r3.2.2.2.2 hminus.2.2.2.2.2.1⟩

/-- Witness of the amended claim C14 at the text "v1.2.3-rc1", whose numbers carry no minus
sign. -/
theorem Fscan_fields_negative_only_under_minus_witness :
    Fscan "v1.2.3-rc1".toList = .ok { major := 1, minor := 2, patch := 3 } ∧
    vtag.wellTyped { major := 1, minor := 2, patch := 3 } ∧
    ∃ p1 p2 p3 rest, "v1.2.3-rc1".toList = 'v' :: (p1 ++ '.' :: (p2 ++ '.' :: (p3 ++ rest))) ∧
      isIntegerText p1 = true ∧ isIntegerText p2 = true ∧ isIntegerText p3 = true :=
  ⟨by decide,
    (Fscan_fields_negative_only_under_minus "v1.2.3-rc1".toList
      { major := 1, minor := 2, patch := 3 } (by decide)).1,
    (Fscan_fields_negative_only_under_minus "v1.2.3-rc1".toList
      { major := 1, minor := 2, patch := 3 } (by decide)).2.1.imp fun _ h1 =>
        h1.imp fun _ h2 => h2.imp fun _ h3 => h3.imp fun _ h4 => ⟨h4.1, h4.2.1, h4.2.2.1, h4.2.2.2.1⟩⟩

/-- Claim C15, counterexample: the in-memory tagger holding v1.2.3 accepts `create` of
v1.2.3 again: the call returns no error and the store holds the tag twice. -/
theorem memoryTagger_create_accepts_existing_name :
    ({ major := 1, minor := 2, patch := 3 } : vtag) ∈
      (memoryTagger.mk [{ major := 1, minor := 2, patch := 3 }]).all ∧
    memoryTagger.create { major := 1, minor := 2, patch := 3 }
        { all := [{ major := 1, minor := 2, patch := 3 }] }
      = (.ok (), { all := [{ major := 1, minor := 2, patch := 3 },
          { major := 1, minor := 2, patch := 3 }] }) := by
  decide

theorem CreateTag_existing_name (repo : repository) (name : List Char) (hash : Nat)
    (h : ∃ r ∈ repo.tags, r.name = name) : repo.CreateTag name hash = .error .ErrTagExists := by
  have hany : repo.tags.any (fun r => decide (r.name = name)) = true := by
    obtain ⟨r, hr, hname⟩ := h
    exact List.any_eq_true.2 ⟨r, hr, by simp [hname]⟩
  simp only [repository.CreateTag, hany, if_true]

/-- Claim C15, as amended: for every store of a git tagger and every tag whose text
`String()` is the name of a tag reference of the store, `create(tag)` fails and leaves the
store unchanged: when the head resolves, `CreateTag` refuses the name and `create` returns
its error as it is, the error that the tag exists; when the head does not resolve,
`create` returns the error of `Head`, wrapped.  The in-memory tagger of the tests makes no
such check. -/
theorem gitTagger_create_fails_on_existing_name (g : gitTagger) (tag : vtag)
    (h : ∃ r ∈ g.repo.tags, r.name = tag.String) :
    (∃ err, gitTagger.create tag g = (.error err, g)) ∧
    (∀ head, g.repo.head = some head → gitTagger.create tag g = (.error .ErrTagExists, g)) ∧
    (g.repo.head = none → gitTagger.create tag g
      = (.error (.wrapped "failed to get head".toList .ErrReferenceNotFound), g)) ∧
    (∀ c : command, ∀ v : vtag, gitTagger.latest g = (.ok v, g) → c.transition v = tag →
      ∃ err, c.action (recording gitTagger.asTagger) { store := g, created := [] }
        = (.error err, { store := g, created := [tag] })) := by
  have hsome : ∀ head, g.repo.head = some head →
      gitTagger.create tag g = (.error .ErrTagExists, g) := by
    intro head hhead
    simp only [gitTagger.create, repository.Head, hhead, CreateTag_existing_name _ _ _ h]
  have hnone : g.repo.head = none → gitTagger.create tag g
      = (.error (.wrapped "failed to get head".toList .ErrReferenceNotFound), g) := by
    intro hhead
    simp only [gitTagger.create, repository.Head, hhead]
  have hfail : ∃ err, gitTagger.create tag g = (.error err, g) := by
    cases hhead : g.repo.head with
    | none => exact ⟨_, hnone hhead⟩
    | some head => exact ⟨_, hsome head hhead⟩
  refine ⟨hfail, hsome, hnone, ?_⟩
  intro c v hlatest htag
  obtain ⟨err, herr⟩ := hfail
  refine ⟨err, ?_⟩
  simp only [action_eq_increment, increment, recording, gitTagger.asTagger, hlatest, htag, herr,
    List.nil_append]

/-- Witness of the amended claim C15 at a repository with the tag reference "v1.2.3" and
the tag v1.2.3. -/
theorem gitTagger_create_fails_on_existing_name_witness :
    (∃ r ∈ [({ name := "v1.2.3".toList, hash := 1 } : reference)],
      r.name = vtag.String { major := 1, minor := 2, patch := 3 }) ∧
    gitTagger.create { major := 1, minor := 2, patch := 3 }
        { repo := { tags := [{ name := "v1.2.3".toList, hash := 1 }], head := some 7 } }
      = (.error .ErrTagExists,
          { repo := { tags := [{ name := "v1.2.3".toList, hash := 1 }], head := some 7 } }) ∧
    ∃ err, gitTagger.create { major := 1, minor := 2, patch := 3 }
        { repo := { tags := [{ name := "v1.2.3".toList, hash := 1 }], head := some 7 } }
      = (.error err,
          { repo := { tags := [{ name := "v1.2.3".toList, hash := 1 }], head := some 7 } }) :=
  ⟨⟨_, List.mem_singleton_self _, by decide⟩, by decide,
    (gitTagger_create_fails_on_existing_name
      { repo := { tags := [{ name := "v1.2.3".toList, hash := 1 }], head := some 7 } }
      { major := 1, minor := 2, patch := 3 } ⟨_, List.mem_singleton_self _, by decide⟩).1⟩

/-! ## The order of the texts and the numeric order -/

theorem cons_lt_cons_iff_lex (a b : Char) (l1 l2 : List Char) :
    a :: l1 < b :: l2 ↔ a < b ∨ (a = b ∧ l1 < l2) := by
  constructor
  · intro h
    cases h with
    | rel h => exact Or.inl h
    | cons h => exact Or.inr ⟨rfl, h⟩
  · rintro (h | ⟨rfl, h⟩)
    · exact List.Lex.rel h
    · exact List.Lex.cons h

theorem digit_lt_iff (m n : Nat) (hm : m < 10) (hn : n < 10) :
    Char.ofNat (48 + m) < Char.ofNat (48 + n) ↔ m < n := by
  interval_cases m <;> interval_cases n <;> decide

theorem digit_eq_iff (m n : Nat) (hm : m < 10) (hn : n < 10) :
    Char.ofNat (48 + m) = Char.ofNat (48 + n) ↔ m = n := by
  interval_cases m <;> interval_cases n <;> decide

theorem fmtInteger_single (n : Nat) (h : n < 10) :
    fmtInteger (n : Int) = [Char.ofNat (48 + n)] := by
  interval_cases n <;> decide

theorem String_single_digits (m1 m2 m3 : Nat) (h1 : m1 < 10) (h2 : m2 < 10) (h3 : m3 < 10) :
    vtag.String { major := m1, minor := m2, patch := m3 }
      = ['v', Char.ofNat (48 + m1), '.', Char.ofNat (48 + m2), '.', Char.ofNat (48 + m3)] := by
  simp [vtag.String, fmtInteger_single, h1, h2, h3]

theorem text_lt_iff_numericLess_of_single_digits (a b : vtag)
    (ha : (0 ≤ a.major ∧ a.major ≤ 9) ∧ (0 ≤ a.minor ∧ a.minor ≤ 9) ∧
      (0 ≤ a.patch ∧ a.patch ≤ 9))
    (hb : (0 ≤ b.major ∧ b.major ≤ 9) ∧ (0 ≤ b.minor ∧ b.minor ≤ 9) ∧
      (0 ≤ b.patch ∧ b.patch ≤ 9)) :
    a.String < b.String ↔ numericLess a b := by
  obtain ⟨a1, a2, a3⟩ := a
  obtain ⟨b1, b2, b3⟩ := b
  obtain ⟨⟨ha1, ha1'⟩, ⟨ha2, ha2'⟩, ⟨ha3, ha3'⟩⟩ := ha
  obtain ⟨⟨hb1, hb1'⟩, ⟨hb2, hb2'⟩, ⟨hb3, hb3'⟩⟩ := hb
  simp only at ha1 ha1' ha2 ha2' ha3 ha3' hb1 hb1' hb2 hb2' hb3 hb3'
  lift a1 to ℕ using ha1
  lift a2 to ℕ using ha2
  lift a3 to ℕ using ha3
  lift b1 to ℕ using hb1
  lift b2 to ℕ using hb2
  lift b3 to ℕ using hb3
  have ea1 : a1 < 10 := by omega
  have ea2 : a2 < 10 := by omega
  have ea3 : a3 < 10 := by omega
  have eb1 : b1 < 10 := by omega
  have eb2 : b2 < 10 := by omega
  have eb3 : b3 < 10 := by omega
  have hv : ¬ (('v' : Char) < 'v') := by decide
  have hdot : ¬ (('.' : Char) < '.') := by decide
  have hnil : ¬ (([] : List Char) < []) := lt_irrefl _
  rw [String_single_digits a1 a2 a3 ea1 ea2 ea3, String_single_digits b1 b2 b3 eb1 eb2 eb3]
  simp only [cons_lt_cons_iff_lex, hv, hdot, hnil, false_or, true_and, and_false, or_false,
    digit_lt_iff _ _ ea1 eb1, digit_lt_iff _ _ ea2 eb2, digit_lt_iff _ _ ea3 eb3,
    digit_eq_iff _ _ ea1 eb1, digit_eq_iff _ _ ea2 eb2, digit_eq_iff _ _ ea3 eb3, numericLess,
    Nat.cast_lt, Nat.cast_inj]

/-- Claim C16: the string order departs from the numeric order only once a component has
two or more digits: for all tags a and b whose six fields lie in 0..9, the text of a is
less than the text of b (the comparison `sortVtags` makes) if and only if (a.major,
a.minor, a.patch) is less than (b.major, b.minor, b.patch) in the numeric lexicographic
order of triples; with the two-digit component of v0.10.0 the orders differ. -/
theorem text_order_is_numeric_on_single_digits (a b : vtag)
    (ha : (0 ≤ a.major ∧ a.major ≤ 9) ∧ (0 ≤ a.minor ∧ a.minor ≤ 9) ∧
      (0 ≤ a.patch ∧ a.patch ≤ 9))
    (hb : (0 ≤ b.major ∧ b.major ≤ 9) ∧ (0 ≤ b.minor ∧ b.minor ≤ 9) ∧
      (0 ≤ b.patch ∧ b.patch ≤ 9)) :
    (a.String < b.String ↔ numericLess a b) ∧ (vtagLess a b = true ↔ numericLess a b) ∧
    (vtagLess { major := 0, minor := 10, patch := 0 } { major := 0, minor := 2, patch := 0 }
        = true ∧
      ¬ numericLess { major := 0, minor := 10, patch := 0 }
        { major := 0, minor := 2, patch := 0 }) := by
  have h := text_lt_iff_numericLess_of_single_digits a b ha hb
  refine ⟨h, ?_, by decide⟩
  rw [← h]
  simp [vtagLess]

/-- Witness of claim C16 at the tags v1.9.3 and v2.0.0. -/
theorem text_order_is_numeric_on_single_digits_witness :
    (vtag.String { major := 1, minor := 9, patch := 3 }
        < vtag.String { major := 2, minor := 0, patch := 0 } ↔
      numericLess { major := 1, minor := 9, patch := 3 }
        { major := 2, minor := 0, patch := 0 }) ∧
    numericLess { major := 1, minor := 9, patch := 3 } { major := 2, minor := 0, patch := 0 } :=
  ⟨(text_order_is_numeric_on_single_digits { major := 1, minor := 9, patch := 3 }
      { major := 2, minor := 0, patch := 0 } (by decide) (by decide)).1, by decide⟩

/-- Claim C17: the text determines the tag, so the order `sortVtags` uses is a strict total
order on tags: for all tags a and b, those with non-negative fields among them, equal texts
imply a = b, exactly one of text a < text b, a = b, text b < text a holds, and the tag
`latestVtag` returns is the only tag of the list whose text is the greatest. -/
theorem text_determines_tag_and_order_is_total (a b : vtag) :
    (a.String = b.String → a = b) ∧
    ((a.String < b.String ∧ a ≠ b ∧ ¬ b.String < a.String) ∨
      (¬ a.String < b.String ∧ a = b ∧ ¬ b.String < a.String) ∨
      (¬ a.String < b.String ∧ a ≠ b ∧ b.String < a.String)) ∧
    (∀ tags : List vtag, a ∈ tags → (∀ u ∈ tags, u.String ≤ a.String) →
      (latestVtag tags).1 = .ok a ∧
        (b ∈ tags → (∀ u ∈ tags, u.String ≤ b.String) → b = a)) := by
  refine ⟨String_injective, ?_, ?_⟩
  · rcases lt_trichotomy a.String b.String with h | h | h
    · exact Or.inl ⟨h, fun hab => by rw [hab] at h; exact lt_irrefl _ h, lt_asymm h⟩
    · have hab := String_injective h
      exact Or.inr (Or.inl ⟨by rw [h]; exact lt_irrefl _, hab, by rw [h]; exact lt_irrefl _⟩)
    · exact Or.inr (Or.inr ⟨lt_asymm h, fun hab => by rw [hab] at h; exact lt_irrefl _ h, h⟩)
  · intro tags ha hmax
    refine ⟨by rw [latestVtag_eq_of_max tags a ha hmax], ?_⟩
    intro hb hbmax
    exact String_injective (le_antisymm (hmax b hb) (hbmax a ha))

/-- Witness of claim C17 at the tags v0.10.0 and v0.2.0 of the list v0.2.0, v0.10.0, of
which v0.2.0 has the greatest text. -/
theorem text_determines_tag_and_order_is_total_witness :
    (vtag.String { major := 0, minor := 10, patch := 0 }
        < vtag.String { major := 0, minor := 2, patch := 0 }) ∧
    (latestVtag [{ major := 0, minor := 2, patch := 0 },
        { major := 0, minor := 10, patch := 0 }]).1 = .ok { major := 0, minor := 2, patch := 0 } :=
  ⟨by decide,
    ((text_determines_tag_and_order_is_total { major := 0, minor := 2, patch := 0 }
      { major := 0, minor := 10, patch := 0 }).2.2
      [{ major := 0, minor := 2, patch := 0 }, { major := 0, minor := 10, patch := 0 }]
      (by decide) (by decide)).1⟩

theorem wrapInt_succ_ne (x : Int) : wrapInt (x + 1) ≠ x := by
  simp only [wrapInt]
  omega

theorem transition_ne (c : command) (t : vtag) : c.transition t ≠ t := by
  obtain ⟨x, y, z⟩ := t
  cases c
  · simp only [command.transition, vtag.incrementMajor, ne_eq, vtag.mk.injEq, not_and]
    intro h
    exact absurd h (wrapInt_succ_ne x)
  · simp only [command.transition, vtag.incrementMinor, ne_eq, vtag.mk.injEq, not_and]
    intro _ h
    exact absurd h (wrapInt_succ_ne y)
  · simp only [command.transition, vtag.incrementPatch, ne_eq, vtag.mk.injEq, not_and]
    intro _ _ h
    exact wrapInt_succ_ne z h

/-- Claim C18, counterexample: from the distinct tags v9.0.0 and v10.0.0, with non-negative
fields, `latestVtag` returns v9.0.0, whose text is the greatest, and the tag the workflow
of major passes to `create` is v10.0.0, which is in the list already. -/
theorem increment_recreates_an_existing_tag :
    ([{ major := 9, minor := 0, patch := 0 }, { major := 10, minor := 0, patch := 0 }]
      : List vtag) ≠ [] ∧
    List.Nodup ([{ major := 9, minor := 0, patch := 0 },
      { major := 10, minor := 0, patch := 0 }] : List vtag) ∧
    (∀ t ∈ ([{ major := 9, minor := 0, patch := 0 }, { major := 10, minor := 0, patch := 0 }]
      : List vtag), 0 ≤ t.major ∧ 0 ≤ t.minor ∧ 0 ≤ t.patch) ∧
    (latestVtag [{ major := 9, minor := 0, patch := 0 },
      { major := 10, minor := 0, patch := 0 }]).1 = .ok { major := 9, minor := 0, patch := 0 } ∧
    (command.action .major (recording memoryTagger.asTagger)
        { store := { all := [{ major := 9, minor := 0, patch := 0 },
          { major := 10, minor := 0, patch := 0 }] }, created := [] }).2.created
      = [command.transition .major { major := 9, minor := 0, patch := 0 }] ∧
    command.transition .major { major := 9, minor := 0, patch := 0 }
      ∈ ([{ major := 9, minor := 0, patch := 0 }, { major := 10, minor := 0, patch := 0 }]
        : List vtag) := by
  decide

/-- Claim C18, as amended: for every non-empty list of tags held by the tagger, distinct and
with non-negative fields or not, and each command c, the tag passed to `create` (the
transition of c applied to the tag `latestVtag` returns) is not the latest tag itself, and
is not equal to any tag of the list when its text is greater, in string order, than the
text of the latest tag. -/
theorem created_tag_is_fresh_when_its_text_is_greater (tags : List vtag) (h : tags ≠ [])
    (c : command) :
    ∃ v, (latestVtag tags).1 = .ok v ∧
      (c.action (recording memoryTagger.asTagger)
        { store := { all := tags }, created := [] }).2.created = [c.transition v] ∧
      c.transition v ≠ v ∧
      (v.String < (c.transition v).String → ∀ u ∈ tags, c.transition v ≠ u) := by
  obtain ⟨v, hv, -, hmax⟩ := latestVtag_spec tags h
  refine ⟨v, by rw [hv], ?_, transition_ne c v, ?_⟩
  · simp only [action_eq_increment, increment, recording, memoryTagger.asTagger,
      memoryTagger.latest, hv, memoryTagger.create, List.nil_append]
  · intro hlt u hu heq
    have hle := hmax u hu
    rw [← heq] at hle
    exact absurd hlt (not_lt.2 hle)

/-- Witness of the amended claim C18 at the tags v0.1.3, v0.2.1, v1.2.3 and the command
patch, which creates v1.2.4. -/
theorem created_tag_is_fresh_when_its_text_is_greater_witness :
    ([{ major := 0, minor := 1, patch := 3 }, { major := 0, minor := 2, patch := 1 },
        { major := 1, minor := 2, patch := 3 }] : List vtag) ≠ [] ∧
    (vtag.String { major := 1, minor := 2, patch := 3 }
      < (command.transition .patch { major := 1, minor := 2, patch := 3 }).String) ∧
    ∃ v, (latestVtag [{ major := 0, minor := 1, patch := 3 },
        { major := 0, minor := 2, patch := 1 }, { major := 1, minor := 2, patch := 3 }]).1
          = .ok v ∧
      command.transition .patch v ≠ v :=
  ⟨by decide, by decide,
    (created_tag_is_fresh_when_its_text_is_greater _ (by decide) .patch).imp
      fun _ hv => ⟨hv.1, hv.2.2.1⟩⟩

/-- Claim C19: every increment yields a numerically newer version: for every tag t, with the
fields taken as unbounded integers, that is, where the sum `field + 1` the transition
computes is the sum of the integers, and each transition f of a command, the triple (major,
minor, patch) of f(t) is strictly greater than that of t in the numeric lexicographic
order, and f(t) differs from t. -/
theorem increment_is_numerically_newer (t : vtag) (c : command)
    (h : wrapInt (c.field t + 1) = c.field t + 1) :
    numericLess t (c.transition t) ∧ c.transition t ≠ t := by
  refine ⟨?_, transition_ne c t⟩
  obtain ⟨x, y, z⟩ := t
  cases c
  · simp only [command.field] at h
    simp only [command.transition, vtag.incrementMajor, numericLess, h]
    exact Or.inl (by omega)
  · simp only [command.field] at h
    simp only [command.transition, vtag.incrementMinor, numericLess, h]
    exact Or.inr ⟨trivial, Or.inl (by omega)⟩
  · simp only [command.field] at h
    simp only [command.transition, vtag.incrementPatch, numericLess, h]
    exact Or.inr ⟨trivial, Or.inr ⟨trivial, by omega⟩⟩

/-- Witness of claim C19 at the tag v1.2.3 and the command minor. -/
theorem increment_is_numerically_newer_witness :
    wrapInt (command.field .minor { major := 1, minor := 2, patch := 3 } + 1)
        = command.field .minor { major := 1, minor := 2, patch := 3 } + 1 ∧
    numericLess { major := 1, minor := 2, patch := 3 }
      (command.transition .minor { major := 1, minor := 2, patch := 3 }) ∧
    command.transition .minor { major := 1, minor := 2, patch := 3 }
      ≠ { major := 1, minor := 2, patch := 3 } :=
  ⟨by decide, increment_is_numerically_newer { major := 1, minor := 2, patch := 3 } .minor
    (by decide)⟩

/-! ## The components of a text that parses -/

theorem dropWhile_append_of_cons (f : Char → Bool) (p y : List Char) (c : Char)
    (rest : List Char) (h : p.dropWhile f = c :: rest) :
    (p ++ y).dropWhile f = c :: (rest ++ y) := by
  induction p with
  | nil => simp at h
  | cons a p ih =>
    rw [List.dropWhile_cons] at h
    rw [List.cons_append, List.dropWhile_cons]
    by_cases ha : f a = true
    · rw [if_pos ha] at h ⊢
      exact ih h
    · rw [if_neg ha] at h ⊢
      rw [← List.cons_append, h, List.cons_append]

theorem isDigits_head (d : Char) (ds : List Char) (h : isDigits (d :: ds) = true) :
    d ∈ decimalDigits := by
  simp only [isDigits, List.isEmpty_cons, Bool.not_false, Bool.true_and, List.all_cons,
    Bool.and_eq_true, decide_eq_true_eq] at h
  exact h.1

theorem beginsWithInteger_of_isIntegerText (p y : List Char) (h : isIntegerText p = true) :
    beginsWithInteger (p ++ y) = true := by
  unfold isIntegerText at h
  cases hd : p.dropWhile isBlank with
  | nil =>
    rw [hd] at h
    simp at h
  | cons c rest =>
    rw [hd] at h
    simp only at h
    rw [beginsWithInteger, dropWhile_append_of_cons _ _ _ _ _ hd]
    by_cases hs : c ∈ sign
    · rw [if_pos hs] at h
      simp only [hs, if_true]
      cases rest with
      | nil => simp [isDigits] at h
      | cons d ds =>
        have := isDigits_head d ds h
        simp [this]
    · rw [if_neg hs] at h
      have := isDigits_head c rest h
      simp [hs, this]

/-- A text that parses starts with `v`, and of its components the first two are the text of
an integer and the third begins with an integer. -/
theorem Fscan_ok_components (text : List Char) (t : vtag) (h : Fscan text = .ok t) :
    text.head? = some 'v' ∧ hasThreeIntegers text = true := by
  obtain ⟨p1, p2, p3, rest, htext, r1, r2, r3⟩ := Fscan_ok_parts text t h
  obtain ⟨q, qs, hq⟩ := splitDots_append p3 rest r3.2.2.2.1
  refine ⟨by rw [htext]; rfl, ?_⟩
  rw [hasThreeIntegers, htext, List.drop_succ_cons, List.drop_zero,
    splitDots_append_dot _ _ r1.2.2.2.1, splitDots_append_dot _ _ r2.2.2.2.1, hq]
  simp [r1.1, r2.1, beginsWithInteger_of_isIntegerText p3 q r3.1]

/-- Claim C10, counterexample: the texts "v1.2.3-rc1" and "v1.2.3x" have the leading `v`
and only two dot-separated components that are integers, "1" and "2" (the third component
is "3-rc1", or "3x"), and parsing them succeeds with {1, 2, 3}. -/
theorem Fscan_succeeds_with_two_integer_components :
    ("v1.2.3-rc1".toList.head? = some 'v' ∧
      splitDots ("v1.2.3-rc1".toList.drop 1) = ["1".toList, "2".toList, "3-rc1".toList] ∧
      integerComponents "v1.2.3-rc1".toList = ["1".toList, "2".toList] ∧
      (integerComponents "v1.2.3-rc1".toList).length < 3 ∧
      ((splitDots ("v1.2.3-rc1".toList.drop 1)).filter isDigits).length < 3 ∧
      Fscan "v1.2.3-rc1".toList = .ok { major := 1, minor := 2, patch := 3 }) ∧
    ("v1.2.3x".toList.head? = some 'v' ∧
      integerComponents "v1.2.3x".toList = ["1".toList, "2".toList] ∧
      (integerComponents "v1.2.3x".toList).length < 3 ∧
      Fscan "v1.2.3x".toList = .ok { major := 1, minor := 2, patch := 3 }) := by
  decide

/-- Claim C10, as amended: parsing fails on every text that lacks the leading `v`, or whose
first or second dot-separated component (of what follows the first rune) is not an
integer, or whose third component is missing or does not begin with an integer; an integer
is blanks (if any), an optional sign and decimal digits and nothing else.  In particular
parsing fails on "1.2.3", on "v1.2", on the empty string and on "v1a.2.3"; a third
component that only begins with an integer, as in "v1.2.3-rc1", does not make it fail. -/
theorem Fscan_fails_without_v_or_three_integers (text : List Char)
    (h : text.head? ≠ some 'v' ∨ hasThreeIntegers text = false) :
    (∃ err, Fscan text = .error err) ∧
      Fscan "1.2.3".toList = .error .noMatch ∧
      Fscan "v1.2".toList = .error .ErrUnexpectedEOF ∧
      Fscan "".toList = .error .ErrUnexpectedEOF ∧
      (hasThreeIntegers "v1a.2.3".toList = false ∧
        Fscan "v1a.2.3".toList = .error .noMatch) ∧
      (hasThreeIntegers "v1.2.3-rc1".toList = true ∧
        Fscan "v1.2.3-rc1".toList = .ok { major := 1, minor := 2, patch := 3 }) := by
  refine ⟨?_, by decide, by decide, by decide, by decide, by decide⟩
  cases hres : Fscan text with
  | error err => exact ⟨err, rfl⟩
  | ok t =>
    obtain ⟨hv, hc⟩ := Fscan_ok_components text t hres
    rcases h with h | h
    · exact absurd hv h
    · rw [hc] at h
      exact absurd h (by simp)

/-- Witness of the amended claim C10 at the texts "v1.2", whose third component is missing,
and "v1a.2.3", whose first component is not an integer. -/
theorem Fscan_fails_without_v_or_three_integers_witness :
    ("v1.2".toList.head? ≠ some 'v' ∨ hasThreeIntegers "v1.2".toList = false) ∧
    (∃ err, Fscan "v1.2".toList = .error err) ∧
    ("v1a.2.3".toList.head? ≠ some 'v' ∨ hasThreeIntegers "v1a.2.3".toList = false) ∧
    (∃ err, Fscan "v1a.2.3".toList = .error err) :=
  ⟨Or.inr (by decide),
    (Fscan_fails_without_v_or_three_integers "v1.2".toList (Or.inr (by decide))).1,
    Or.inr (by decide),
    (Fscan_fails_without_v_or_three_integers "v1a.2.3".toList (Or.inr (by decide))).1⟩

/-! ## Where blanks are skipped -/

theorem not_space_or_tab_of_digit {c : Char} (h : c ∈ decimalDigits) :
    (c == ' ' || c == '\t') = false := by
  rcases mem_digits_cases h with h | h | h | h | h | h | h | h | h | h <;> subst h <;> decide

theorem isSignedDigits_parts (sgn : Option Char) (tok : List Char)
    (hs : sgn = none ∨ sgn = some '+' ∨ sgn = some '-') (hne : tok ≠ [])
    (hd : ∀ c ∈ tok, c ∈ decimalDigits) :
    isSignedDigits (sgn.toList ++ tok) = true ∧ hasSpaceOrTab (sgn.toList ++ tok) = false := by
  have hdig := isDigits_of_digits tok hne hd
  have htok : hasSpaceOrTab tok = false := by
    rw [hasSpaceOrTab, List.any_eq_false]
    intro c hc
    have := not_space_or_tab_of_digit (hd c hc)
    simpa using this
  rcases hs with hs | hs | hs
  · subst hs
    cases tok with
    | nil => exact absurd rfl hne
    | cons d ds =>
      have hdf := digit_facts (hd d (List.mem_cons_self d ds))
      refine ⟨?_, htok⟩
      simp only [Option.toList, List.nil_append, isSignedDigits, hdf.2.2.2.2.1, if_false]
      exact hdig
  · subst hs
    have hplus : '+' ∈ sign := by decide
    refine ⟨?_, ?_⟩
    · simp only [Option.toList, List.singleton_append, isSignedDigits, hplus, if_true]
      exact hdig
    · have h1 : (('+' : Char) == ' ' || ('+' : Char) == '\t') = false := by decide
      simp only [hasSpaceOrTab, Option.toList, List.singleton_append, List.any_cons] at htok ⊢
      simpa using htok
  · subst hs
    have hminus : '-' ∈ sign := by decide
    refine ⟨?_, ?_⟩
    · simp only [Option.toList, List.singleton_append, isSignedDigits, hminus, if_true]
      exact hdig
    · simp only [hasSpaceOrTab, Option.toList, List.singleton_append, List.any_cons] at htok ⊢
      simpa using htok

theorem scanVerbD_split (s : List Char) (a : Int) (unread : List Char)
    (h : scanVerbD s = .ok (a, unread)) :
    ∃ sp n, s = sp ++ (n ++ unread) ∧ (∀ c ∈ sp, isBlank c = true) ∧
      isSignedDigits n = true ∧ hasSpaceOrTab n = false := by
  unfold scanVerbD at h
  split at h
  · exact absurd h (by simp)
  · rename_i s1 hskip
    obtain ⟨sp0, hsp0, hblank0, -⟩ := SkipSpace_ok s s1 hskip
    obtain ⟨sp, sgn, tok, hs1, hblank, hs, hne, hd, -, -⟩ := scanInt_parts s1 a unread h
    obtain ⟨hsd, hst⟩ := isSignedDigits_parts sgn tok hs hne hd
    refine ⟨sp0 ++ sp, sgn.toList ++ tok, ?_, ?_, hsd, hst⟩
    · rw [hsp0, hs1]
      simp only [List.append_assoc]
    · intro c hc
      rcases List.mem_append.1 hc with hc | hc
      · exact hblank0 c hc
      · exact hblank c hc

theorem Scan_split (s : List Char) (t : vtag) (unread : List Char)
    (h : vtag.Scan s = .ok (t, unread)) :
    ∃ s1 n1 s2 n2 s3 n3, s = 'v' :: (s1 ++ (n1 ++ '.' :: (s2 ++ (n2 ++ '.' :: (s3 ++
        (n3 ++ unread)))))) ∧
      ((∀ c ∈ s1, isBlank c = true) ∧ (∀ c ∈ s2, isBlank c = true) ∧
        (∀ c ∈ s3, isBlank c = true)) ∧
      (isSignedDigits n1 = true ∧ isSignedDigits n2 = true ∧ isSignedDigits n3 = true) ∧
      (hasSpaceOrTab n1 = false ∧ hasSpaceOrTab n2 = false ∧ hasSpaceOrTab n3 = false) := by
  unfold vtag.Scan at h
  split at h
  · exact absurd h (by simp)
  · rename_i x1 h1
    split at h
    · exact absurd h (by simp)
    · rename_i a x2 h2
      split at h
      · exact absurd h (by simp)
      · rename_i x3 h3
        split at h
        · exact absurd h (by simp)
        · rename_i b x4 h4
          split at h
          · exact absurd h (by simp)
          · rename_i x5 h5
            split at h
            · exact absurd h (by simp)
            · rename_i c x6 h6
              simp only [Except.ok.injEq, Prod.mk.injEq] at h
              obtain ⟨-, hun⟩ := h
              subst hun
              obtain ⟨s1, n1, e1, b1, d1, w1⟩ := scanVerbD_split _ _ _ h2
              obtain ⟨s2, n2, e2, b2, d2, w2⟩ := scanVerbD_split _ _ _ h4
              obtain ⟨s3, n3, e3, b3, d3, w3⟩ := scanVerbD_split _ _ _ h6
              refine ⟨s1, n1, s2, n2, s3, n3, ?_, ⟨b1, b2, b3⟩, ⟨d1, d2, d3⟩, ⟨w1, w2, w3⟩⟩
              rw [advance_ok _ _ _ h1, e1, advance_ok _ _ _ h3, e2, advance_ok _ _ _ h5, e3]

/-- In a text that parses, blanks stand before the three numbers and in what follows the
third number, and nowhere else. -/
theorem Fscan_split (text : List Char) (t : vtag) (h : Fscan text = .ok t) :
    ∃ s1 n1 s2 n2 s3 n3 rest, text = 'v' :: (s1 ++ (n1 ++ '.' :: (s2 ++ (n2 ++ '.' :: (s3 ++
        (n3 ++ rest)))))) ∧
      ((∀ c ∈ s1, isBlank c = true) ∧ (∀ c ∈ s2, isBlank c = true) ∧
        (∀ c ∈ s3, isBlank c = true)) ∧
      (isSignedDigits n1 = true ∧ isSignedDigits n2 = true ∧ isSignedDigits n3 = true) ∧
      (hasSpaceOrTab n1 = false ∧ hasSpaceOrTab n2 = false ∧ hasSpaceOrTab n3 = false) := by
  unfold Fscan at h
  split at h
  · rename_i t1 unread hscan
    obtain ⟨s1, n1, s2, n2, s3, n3, hs, hb, hd, hw⟩ := Scan_split _ _ _ hscan
    refine ⟨s1, n1, s2, n2, s3, n3, unread ++ text.drop hugeWid, ?_, hb, hd, hw⟩
    conv_lhs => rw [← List.take_append_drop hugeWid text, hs]
    simp
  · exact absurd h (by simp)
  · exact absurd h (by simp)

theorem not_digit_of_blank {b : Char} (hb : isBlank b = true) : b ∉ decimalDigits := by
  intro hmem
  have hs := (digit_facts hmem).2.1
  simp [isBlank, hs] at hb

theorem take_hugeWid_append (pre rest : List Char) (h : pre.length ≤ hugeWid) :
    (pre ++ rest).take hugeWid = pre ++ rest.take (hugeWid - pre.length) := by
  rw [List.take_append_eq_append_take, List.take_of_length_le h]

/-- A blank between the first number and the dot that follows makes parsing fail. -/
theorem Fscan_blank_after_first_number (x : Int) (b : Char) (rest : List Char) (hx : isInt x)
    (hb : isBlank b = true) :
    Fscan ('v' :: (fmtInteger x ++ b :: rest)) = .error .noMatch := by
  have hlen := fmtInteger_length x hx
  have hsplit : 'v' :: (fmtInteger x ++ b :: rest) = ('v' :: (fmtInteger x ++ [b])) ++ rest := by
    simp
  have hpre : ('v' :: (fmtInteger x ++ [b])).length ≤ hugeWid := by
    simp only [List.length_cons, List.length_append, List.length_nil, hugeWid]
    omega
  have hahead : ∀ l : List Char, noDigitAhead (b :: l) := by
    intro l c hc
    simp only [List.head?_cons, Option.some.injEq] at hc
    rw [← hc]
    exact not_digit_of_blank hb
  have hdot : '.' ≠ b := by
    intro hc
    rw [← hc] at hb
    revert hb
    decide
  rw [Fscan, hsplit, take_hugeWid_append _ _ hpre]
  generalize List.take (hugeWid - ('v' :: (fmtInteger x ++ [b])).length) rest = r
  have hjoin : ('v' :: (fmtInteger x ++ [b])) ++ r = 'v' :: (fmtInteger x ++ b :: r) := by
    simp
  have e1 := scanVerbD_fmtInteger x (b :: r) hx (hahead _)
  rw [hjoin]
  simp [vtag.Scan, advance, e1, hdot]

/-- A blank between the second number and the dot that follows makes parsing fail. -/
theorem Fscan_blank_after_second_number (x y : Int) (b : Char) (rest : List Char)
    (hx : isInt x) (hy : isInt y) (hb : isBlank b = true) :
    Fscan ('v' :: (fmtInteger x ++ '.' :: (fmtInteger y ++ b :: rest))) = .error .noMatch := by
  have hlx := fmtInteger_length x hx
  have hly := fmtInteger_length y hy
  have hsplit : 'v' :: (fmtInteger x ++ '.' :: (fmtInteger y ++ b :: rest))
      = ('v' :: (fmtInteger x ++ '.' :: (fmtInteger y ++ [b]))) ++ rest := by
    simp
  have hpre : ('v' :: (fmtInteger x ++ '.' :: (fmtInteger y ++ [b]))).length ≤ hugeWid := by
    simp only [List.length_cons, List.length_append, List.length_nil, hugeWid]
    omega
  have hahead : ∀ l : List Char, noDigitAhead (b :: l) := by
    intro l c hc
    simp only [List.head?_cons, Option.some.injEq] at hc
    rw [← hc]
    exact not_digit_of_blank hb
  have hdot : '.' ≠ b := by
    intro hc
    rw [← hc] at hb
    revert hb
    decide
  rw [Fscan, hsplit, take_hugeWid_append _ _ hpre]
  generalize List.take (hugeWid - ('v' :: (fmtInteger x ++ '.' ::
    (fmtInteger y ++ [b]))).length) rest = r
  have hjoin : ('v' :: (fmtInteger x ++ '.' :: (fmtInteger y ++ [b]))) ++ r
      = 'v' :: (fmtInteger x ++ '.' :: (fmtInteger y ++ b :: r)) := by
    simp
  have e2 := scanVerbD_fmtInteger y (b :: r) hy (hahead _)
  have e1 := scanVerbD_fmtInteger x ('.' :: (fmtInteger y ++ b :: r)) hx (noDigitAhead_dot _)
  rw [hjoin]
  simp [vtag.Scan, advance, e1, e2, hdot]

/-- Claim C12, as amended: parsing tolerates whitespace in two places only.  Every text on
which parsing succeeds is `v`, blanks, a number, `.`, blanks, a number, `.`, blanks, a
number and a rest, where a number is an optional sign and decimal digits without any space
or tab; so every space or tab of the text stands between the `v` or one of the first two
dots and the number that follows, or in the rest after the third number, and parsing fails
on every text that is not of this form: with a space or a tab before the `v` (" v1.2.3"),
between a number and the dot that follows ("v1 .2.3", "v1.2\t.3") or inside a number
("v- 1.2.3").  In the two places blanks are tolerated: blanks before a number are skipped,
as long as the numbers lie within the first `hugeWid` runes, and the rest is not examined,
so that "v 1.2.3", "v1.\t2.3" and "v1.2.3 " parse to {1, 2, 3}. -/
theorem Fscan_blanks_only_where_skipped :
    (∀ (text : List Char) (t : vtag), Fscan text = .ok t →
      ∃ s1 n1 s2 n2 s3 n3 rest, text = 'v' :: (s1 ++ (n1 ++ '.' :: (s2 ++ (n2 ++ '.' :: (s3 ++
          (n3 ++ rest)))))) ∧
        ((∀ c ∈ s1, isBlank c = true) ∧ (∀ c ∈ s2, isBlank c = true) ∧
          (∀ c ∈ s3, isBlank c = true)) ∧
        (isSignedDigits n1 = true ∧ isSignedDigits n2 = true ∧ isSignedDigits n3 = true) ∧
        (hasSpaceOrTab n1 = false ∧ hasSpaceOrTab n2 = false ∧ hasSpaceOrTab n3 = false)) ∧
    (∀ text : List Char,
      (¬ ∃ s1 n1 s2 n2 s3 n3 rest, text = 'v' :: (s1 ++ (n1 ++ '.' :: (s2 ++ (n2 ++ '.' :: (s3 ++
          (n3 ++ rest)))))) ∧
        ((∀ c ∈ s1, isBlank c = true) ∧ (∀ c ∈ s2, isBlank c = true) ∧
          (∀ c ∈ s3, isBlank c = true)) ∧
        (isSignedDigits n1 = true ∧ isSignedDigits n2 = true ∧ isSignedDigits n3 = true) ∧
        (hasSpaceOrTab n1 = false ∧ hasSpaceOrTab n2 = false ∧ hasSpaceOrTab n3 = false)) →
      ∃ err, Fscan text = .error err) ∧
    (∀ text : List Char, text.head? = some ' ' ∨ text.head? = some '\t' →
      ∃ err, Fscan text = .error err) ∧
    (∀ (x : Int) (b : Char) (rest : List Char), isInt x → isBlank b = true →
      Fscan ('v' :: (fmtInteger x ++ b :: rest)) = .error .noMatch) ∧
    (∀ (x y : Int) (b : Char) (rest : List Char), isInt x → isInt y → isBlank b = true →
      Fscan ('v' :: (fmtInteger x ++ '.' :: (fmtInteger y ++ b :: rest))) = .error .noMatch) ∧
    (isBlank ' ' = true ∧ isBlank '\t' = true) ∧
    (∀ (t : vtag) (s1 s2 s3 rest : List Char), t.wellTyped →
      (∀ c ∈ s1, isBlank c = true) → (∀ c ∈ s2, isBlank c = true) →
      (∀ c ∈ s3, isBlank c = true) → noDigitAhead rest →
      s1.length + s2.length + s3.length + 66 ≤ hugeWid →
      Fscan ('v' :: (s1 ++ (fmtInteger t.major ++ '.' :: (s2 ++ (fmtInteger t.minor ++
        '.' :: (s3 ++ (fmtInteger t.patch ++ rest))))))) = .ok t) ∧
    (Fscan " v1.2.3".toList = .error .noMatch ∧
      Fscan "v1 .2.3".toList = .error .noMatch ∧
      Fscan "v1.2\t.3".toList = .error .noMatch ∧
      Fscan "v- 1.2.3".toList = .error .expectedInteger) ∧
    (Fscan "v 1.2.3".toList = .ok { major := 1, minor := 2, patch := 3 } ∧
      Fscan "v1.\t2.3".toList = .ok { major := 1, minor := 2, patch := 3 } ∧
      Fscan "v1.2.3 ".toList = .ok { major := 1, minor := 2, patch := 3 }) := by
  refine ⟨Fscan_split, ?_, ?_, fun x b rest hx hb => Fscan_blank_after_first_number x b rest hx hb,
    fun x y b rest hx hy hb => Fscan_blank_after_second_number x y b rest hx hy hb,
    by decide, ?_, by decide, by decide⟩
  · intro text hno
    cases hres : Fscan text with
    | error err => exact ⟨err, rfl⟩
    | ok t => exact absurd (Fscan_split text t hres) hno
  · intro text h
    cases text with
    | nil => simp at h
    | cons c cs =>
      have hc : 'v' ≠ c := by
        rcases h with h | h <;>
        · simp only [List.head?_cons, Option.some.injEq] at h
          subst h
          decide
      refine ⟨.noMatch, ?_⟩
      have : List.take hugeWid (c :: cs) = c :: List.take (hugeWid - 1) cs := by
        simp [hugeWid]
      simp [Fscan, this, vtag.Scan, advance, hc]
  · intro t s1 s2 s3 rest ht h1 h2 h3 hr hlen
    have l1 := fmtInteger_length _ ht.1
    have l2 := fmtInteger_length _ ht.2.1
    have l3 := fmtInteger_length _ ht.2.2
    have hsplit : 'v' :: (s1 ++ (fmtInteger t.major ++ '.' :: (s2 ++ (fmtInteger t.minor ++
          '.' :: (s3 ++ (fmtInteger t.patch ++ rest))))))
        = ('v' :: (s1 ++ (fmtInteger t.major ++ '.' :: (s2 ++ (fmtInteger t.minor ++
          '.' :: (s3 ++ fmtInteger t.patch)))))) ++ rest := by
      simp
    have hmlen : ('v' :: (s1 ++ (fmtInteger t.major ++ '.' :: (s2 ++ (fmtInteger t.minor ++
          '.' :: (s3 ++ fmtInteger t.patch)))))).length ≤ hugeWid := by
      simp only [List.length_cons, List.length_append]
      omega
    have htake : List.take hugeWid ('v' :: (s1 ++ (fmtInteger t.major ++ '.' :: (s2 ++
          (fmtInteger t.minor ++ '.' :: (s3 ++ (fmtInteger t.patch ++ rest)))))))
        = 'v' :: (s1 ++ (fmtInteger t.major ++ '.' :: (s2 ++ (fmtInteger t.minor ++
          '.' :: (s3 ++ (fmtInteger t.patch ++ rest.take (hugeWid -
            ('v' :: (s1 ++ (fmtInteger t.major ++ '.' :: (s2 ++ (fmtInteger t.minor ++
              '.' :: (s3 ++ fmtInteger t.patch)))))).length))))))) := by
      rw [hsplit, take_hugeWid_append _ _ hmlen]
      simp
    have h := Scan_blanks t s1 s2 s3 _ ht h1 h2 h3 (noDigitAhead_take (hugeWid -
      ('v' :: (s1 ++ (fmtInteger t.major ++ '.' :: (s2 ++ (fmtInteger t.minor ++
        '.' :: (s3 ++ fmtInteger t.patch)))))).length) rest hr)
    rw [Fscan, htake, h]

/-- Witness of the amended claim C12 at the texts "v 1.2.3", " v1.2.3", "v1 .2.3", "v1.2\t.3"
and "v 1.\t2. 3-rc1". -/
theorem Fscan_blanks_only_where_skipped_witness :
    (∃ s1 n1 s2 n2 s3 n3 rest, "v 1.2.3".toList
        = 'v' :: (s1 ++ (n1 ++ '.' :: (s2 ++ (n2 ++ '.' :: (s3 ++ (n3 ++ rest)))))) ∧
      ((∀ c ∈ s1, isBlank c = true) ∧ (∀ c ∈ s2, isBlank c = true) ∧
        (∀ c ∈ s3, isBlank c = true)) ∧
      (isSignedDigits n1 = true ∧ isSignedDigits n2 = true ∧ isSignedDigits n3 = true) ∧
      (hasSpaceOrTab n1 = false ∧ hasSpaceOrTab n2 = false ∧ hasSpaceOrTab n3 = false)) ∧
    (∃ err, Fscan " v1.2.3".toList = .error err) ∧
    Fscan ('v' :: (fmtInteger 1 ++ ' ' :: ".2.3".toList)) = .error .noMatch ∧
    Fscan ('v' :: (fmtInteger 1 ++ '.' :: (fmtInteger 2 ++ '\t' :: ".3".toList)))
      = .error .noMatch ∧
    Fscan ('v' :: (" ".toList ++ (fmtInteger 1 ++ '.' :: ("\t".toList ++ (fmtInteger 2 ++
        '.' :: (" ".toList ++ (fmtInteger 3 ++ "-rc1".toList)))))))
      = .ok { major := 1, minor := 2, patch := 3 } :=
  ⟨Fscan_blanks_only_where_skipped.1 "v 1.2.3".toList { major := 1, minor := 2, patch := 3 }
      (by decide),
    Fscan_blanks_only_where_skipped.2.2.1 " v1.2.3".toList (Or.inl (by decide)),
    Fscan_blanks_only_where_skipped.2.2.2.1 1 ' ' ".2.3".toList (by decide) (by decide),
    Fscan_blanks_only_where_skipped.2.2.2.2.1 1 2 '\t' ".3".toList (by decide) (by decide)
      (by decide),
    Fscan_blanks_only_where_skipped.2.2.2.2.2.2.1 { major := 1, minor := 2, patch := 3 }
      " ".toList "\t".toList " ".toList "-rc1".toList (by decide)
      (fun c hc => by simp at hc; subst hc; decide)
      (fun c hc => by simp at hc; subst hc; decide)
      (fun c hc => by simp at hc; subst hc; decide)
      (fun c hc => by simp at hc; subst hc; decide) (by decide)⟩

end GoVtag
